import Mathlib

/-!
# Ring membership and failure recovery of chfsd (`src/chfsd/ring_rpc.c`)

A shallow embedding of the RPC handlers of `ring_rpc.c`.

* A node identity is a C string, compared with `strcmp`; it is a `String` here and a
  nullable `char *` is an `Option String`.
* The process-wide globals of one server (the neighbour table of `ring.c`, the membership
  list of `ring_list.c`, `heartbeat_time`, `coordinator_rpc_done`) are the record `Server`.
* An outbound RPC (`ring_rpc_*`) may fail.  Its result is given by a `Net`: a function of the
  number of RPCs the running handler has attempted so far, the target and the payload.
  Every attempt is recorded, with its result, in `World.sent`.
* `int` values are mathematical integers: list lengths stay far below `2^31`.
* `assert` failures, a `NULL` passed to `strcmp`, a division by zero, an out-of-bounds read
  and a double `free` end the handler: it returns `none`.  A `while` loop carries a fuel
  argument and returns `none` when the fuel is used up.
-/

namespace Chfs

/-! ## Data model -/

/-- Payload of an RPC, one constructor per RPC registered in `ring_rpc_init`. -/
inductive Msg where
  | join (host : String)
  | set_next (host : String)
  | set_prev (host : String)
  | list (l : List String)
  | election (l : List String)
  | coordinator (l : List String) (ttl : Int)
  deriving DecidableEq

/-- One outbound RPC attempt: the target server, the payload and whether `ring_rpc_*`
returned `HG_SUCCESS`. -/
structure Rpc where
  server : Option String
  msg : Msg
  ok : Bool
  deriving DecidableEq

/-- Result of the `k`-th outbound RPC of a handler run, for a target and a payload. -/
abbrev Net := Nat → Option String → Msg → Bool

/-- Modelled from the spec: the Neighbour Table of `ring.c` (absent from the sources), a
mapping from role to node identity, nullable except `self`. -/
structure Ring where
  self : String
  next : Option String
  prev : Option String
  next_next : Option String
  prev_prev : Option String
  deriving DecidableEq

/-- The `coordinator_t` of `ring_types.h`: a TTL and a participant list. -/
structure coordinator_t where
  ttl : Int
  list : List String
  deriving DecidableEq

/-- Process-wide state of one server. -/
structure Server where
  ring : Ring
  ring_list : List String
  heartbeat_time : Nat
  coordinator_rpc_done : Bool
  deriving DecidableEq

/-- State of a running handler: the server state and the RPCs attempted so far. -/
structure World where
  srv : Server
  sent : List Rpc
  deriving DecidableEq

/-! ## Neighbour table and membership list accessors -/

/-- Modelled from the spec: `ring_set_next` of `ring.c`, `set(role, id)` replaces the current
value of the role. -/
def ring_set_next (w : World) (host : String) : World :=
  { w with srv := { w.srv with ring := { w.srv.ring with next := some host } } }

/-- Modelled from the spec: `ring_set_prev` of `ring.c`, `set(role, id)` replaces the current
value of the role. -/
def ring_set_prev (w : World) (host : String) : World :=
  { w with srv := { w.srv with ring := { w.srv.ring with prev := some host } } }

/-- Modelled from the spec: `ring_set_next_next` of `ring.c`, `set(role, id)` replaces the
current value of the role. -/
def ring_set_next_next (w : World) (host : String) : World :=
  { w with srv := { w.srv with ring := { w.srv.ring with next_next := some host } } }

/-- Modelled from the spec: `ring_set_prev_prev` of `ring.c`, `set(role, id)` replaces the
current value of the role. -/
def ring_set_prev_prev (w : World) (host : String) : World :=
  { w with srv := { w.srv with ring := { w.srv.ring with prev_prev := some host } } }

/-- Modelled from the spec: `ring_list_update` of `ring_list.c` (absent from the sources),
which replaces the local Membership List with the list it is given. -/
def ring_list_update (w : World) (l : List String) : World :=
  { w with srv := { w.srv with ring_list := l } }

/-! ## RPC shim -/

/-- The common body of the `ring_rpc_*` senders: `create_rpc_handle`, `margo_forward_timed`
and `margo_destroy`.  The result is the one the `Net` gives for this attempt. -/
def forward (net : Net) (w : World) (server : Option String) (m : Msg) : Bool × World :=
  let ok := net w.sent.length server m
  (ok, { w with sent := w.sent ++ [⟨server, m, ok⟩] })

/-- `ring_rpc_set_next(server, host)`. -/
def ring_rpc_set_next (net : Net) (w : World) (server : Option String) (host : String) :
    Bool × World :=
  forward net w server (Msg.set_next host)

/-- `ring_rpc_set_prev(server, host)`. -/
def ring_rpc_set_prev (net : Net) (w : World) (server : Option String) (host : String) :
    Bool × World :=
  forward net w server (Msg.set_prev host)

/-- `ring_rpc_list(server, list, self)`: a `NULL` list stands for the empty one, `self` is
appended for the send only (`++list->n` before, `--list->n` after). -/
def ring_rpc_list (net : Net) (w : World) (server : Option String)
    (list : Option (List String)) (self : String) : Bool × World :=
  match list with
  | none => forward net w server (Msg.list [self])
  | some l => forward net w server (Msg.list (l ++ [self]))

/-- `ring_rpc_election(server, list, self)`: a `NULL` list stands for the empty one, `self`
is appended for the send only (`++list->n` before, `--list->n` after). -/
def ring_rpc_election (net : Net) (w : World) (server : Option String)
    (list : Option (List String)) (self : String) : Bool × World :=
  match list with
  | none => forward net w server (Msg.election [self])
  | some l => forward net w server (Msg.election (l ++ [self]))

/-- `ring_rpc_coordinator(server, list)`. -/
def ring_rpc_coordinator (net : Net) (w : World) (server : Option String)
    (c : coordinator_t) : Bool × World :=
  forward net w server (Msg.coordinator c.list c.ttl)

/-! ## Handlers -/

/-- The search loop `for (i = 0; i < n; ++i) if (strcmp(s[i], host) == 0) break;`:
the index of the first entry equal to `host`, the length of the list when there is none. -/
def search (host : String) : List String → Nat
  | [] => 0
  | x :: xs => if x = host then 0 else search host xs + 1

/-- The `join` handler: the new world and the identity given to `margo_respond`.
`none` when the `assert` on the second `set_next` fails. -/
def join (net : Net) (s : Server) (inp : String) : Option (World × Option String) :=
  let w : World := ⟨s, []⟩
  let prev := w.srv.ring.prev
  let (ok, w1) := ring_rpc_set_next net w prev inp
  if ok then
    some (ring_set_prev w1 inp, prev)
  else
    let prev := w1.srv.ring.prev_prev
    let (ok2, w2) := ring_rpc_set_next net w1 prev inp
    if ok2 then some (ring_set_prev w2 inp, prev) else none

/-- `ring_fix_next(next, election)`: the returned `int` and the new world.
`none` when `strcmp` is given a `NULL` `next`. -/
def ring_fix_next (net : Net) (w : World) (next : Option String) (election : Int) :
    Option (Int × World) :=
  match w.srv.ring.next_next with
  | none => some (-1, w)
  | some next_next =>
    match next with
    | none => none
    | some nx =>
      if nx = next_next then some (-1, w)
      else
        let w1 := ring_set_next w next_next
        let self := w1.srv.ring.self
        let (ok, w2) := ring_rpc_set_prev net w1 (some next_next) self
        if !ok then some (-1, w2)
        else if election ≠ 0 then
          let (ok2, w3) := ring_rpc_election net w2 (some next_next) none self
          if ok2 then some (0, w3) else some (-1, w3)
        else some (0, w2)

/-- The `while (1)` loop of `ring_heartbeat` and of the `list` handler. -/
def list_loop (net : Net) (list : Option (List String)) : Nat → World → Option World
  | 0, _ => none
  | fuel + 1, w =>
    let next := w.srv.ring.next
    let (ok, w1) := ring_rpc_list net w next list w.srv.ring.self
    if ok then some w1
    else
      match ring_fix_next net w1 next 1 with
      | none => none
      | some (r, w2) => if r = -1 then some w2 else list_loop net list fuel w2

/-- The `while (1)` loop of `ring_start_election` and of the first branch of the `election`
handler. -/
def election_loop (net : Net) (list : Option (List String)) : Nat → World → Option World
  | 0, _ => none
  | fuel + 1, w =>
    let next := w.srv.ring.next
    let (ok, w1) := ring_rpc_election net w next list w.srv.ring.self
    if ok then some w1
    else
      match ring_fix_next net w1 next 0 with
      | none => none
      | some (r, w2) => if r = -1 then some w2 else election_loop net list fuel w2

/-- `ring_heartbeat()`. -/
def ring_heartbeat (net : Net) (fuel : Nat) (s : Server) : Option World :=
  list_loop net none fuel ⟨s, []⟩

/-- `ring_start_election()`, run on a world (it is called by the `set_next` handler). -/
def ring_start_election (net : Net) (fuel : Nat) (now : Nat) (w : World) : Option World :=
  election_loop net none fuel { w with srv := { w.srv with heartbeat_time := now } }

/-- The `set_next` handler. -/
def set_next (net : Net) (fuel : Nat) (now : Nat) (s : Server) (inp : String) :
    Option World :=
  ring_start_election net fuel now (ring_set_next ⟨s, []⟩ inp)

/-- The `set_prev` handler. -/
def set_prev (s : Server) (inp : String) : World :=
  ring_set_prev ⟨s, []⟩ inp

/-- The `list` handler. -/
def list (net : Net) (fuel : Nat) (now : Nat) (s : Server) (inp : List String) :
    Option World :=
  let w : World := ⟨{ s with heartbeat_time := now }, []⟩
  if search w.srv.ring.self inp = inp.length then list_loop net (some inp) fuel w
  else some w

/-- `remove_host(c, host)`; `none` when `strcmp` is given a `NULL` host. -/
def remove_host (c : coordinator_t) (host : Option String) : Option coordinator_t :=
  match c.list, host with
  | [], _ => some c
  | _ :: _, none => none
  | _ :: _, some h =>
    let i := search h c.list
    if i < c.list.length then some { ttl := c.ttl - 1, list := c.list.eraseIdx i }
    else some c

/-- The `while (1)` loop that forwards a coordinator message, in the `election` and the
`coordinator` handlers: the new world and the message as `remove_host` left it. -/
def coordinator_loop (net : Net) : Nat → World → coordinator_t → Option (World × coordinator_t)
  | 0, _, _ => none
  | fuel + 1, w, c =>
    let next := w.srv.ring.next
    let (ok, w1) := ring_rpc_coordinator net w next c
    if ok then some (w1, c)
    else
      match remove_host c next with
      | none => none
      | some c1 =>
        match ring_fix_next net w1 next 0 with
        | none => none
        | some (r, w2) => if r = -1 then some (w2, c1) else coordinator_loop net fuel w2 c1

/-- The `election` handler.  In the second branch `in3.list = in` copies the length and
shares the array `in.s`.  Once `remove_host(&in3, next)` has removed an entry it has freed
it and shifted the shared array, while `in.n` is unchanged: `margo_free_input(h, &in)` at
the end of the handler then frees `in.n` entries of that array, one of them for the second
time, and the handler ends there (`none`).  The list of `in3` is shorter than `inp` exactly
when `remove_host` has removed an entry. -/
def election (net : Net) (fuel : Nat) (now : Nat) (s : Server) (inp : List String) :
    Option World :=
  let w : World := ⟨{ s with heartbeat_time := now }, []⟩
  if search w.srv.ring.self inp = inp.length then
    election_loop net (some inp) fuel w
  else
    let in3 : coordinator_t := { ttl := (inp.length : Int) - 1, list := inp }
    match coordinator_loop net fuel w in3 with
    | none => none
    | some (w1, c1) => if c1.list.length = inp.length then some w1 else none

/-- The loop `while (i < 0) i += n;` of the `coordinator` handler. -/
def wrap_loop (n : Int) : Nat → Int → Option Int
  | 0, i => if i < 0 then none else some i
  | fuel + 1, i => if i < 0 then wrap_loop n fuel (i + n) else some i

/-- The part of the `coordinator` handler after the forward: `ring_list_update`, the search
for `self`, the two index computations and the latch.  `none` on a division by zero or an
out-of-bounds read of `in.list.s`. -/
def coordinator_update (fuel : Nat) (w : World) (c : coordinator_t) : Option World :=
  let w1 := ring_list_update w c.list
  let self := w1.srv.ring.self
  let i : Int := search self c.list
  let n : Int := c.list.length
  if n = 0 then none
  else
    let i := Int.tmod (i + 2) n
    if i < 0 then none
    else
      match c.list.get? i.toNat with
      | none => none
      | some h1 =>
        let w2 := ring_set_next_next w1 h1
        let i := i - 4
        match wrap_loop n fuel i with
        | none => none
        | some i =>
          match c.list.get? i.toNat with
          | none => none
          | some h2 =>
            let w3 := ring_set_prev_prev w2 h2
            some { w3 with srv := { w3.srv with coordinator_rpc_done := true } }

/-- The `coordinator` handler. -/
def coordinator (net : Net) (fuel : Nat) (now : Nat) (s : Server) (inp : coordinator_t) :
    Option World :=
  let w : World := ⟨{ s with heartbeat_time := now }, []⟩
  if inp.ttl > 0 then
    let c : coordinator_t := { inp with ttl := inp.ttl - 1 }
    match coordinator_loop net fuel w c with
    | none => none
    | some (w1, c1) => coordinator_update fuel w1 c1
  else coordinator_update fuel w inp

/-! ## A set of servers exchanging messages -/

/-- Servers by identity (`none`: no live server of that name), the messages accepted by the
transport and not yet handled, the handler invocations so far, and a clock for `time(NULL)`. -/
structure Cluster where
  nodes : String → Option Server
  wire : List (String × Msg)
  handled : List (String × Msg)
  clock : Nat

/-- An RPC succeeds exactly when its target is a live server of the cluster: no message is
lost on the way to a live server. -/
def Cluster.net (c : Cluster) : Net :=
  fun _ server _ =>
    match server with
    | none => false
    | some a => (c.nodes a).isSome

/-- The successful RPCs of a handler run, as messages for their targets. -/
def accepted (sent : List Rpc) : List (String × Msg) :=
  sent.filterMap fun r =>
    if r.ok then r.server.map fun a => (a, r.msg) else none

/-- Dispatch of a message to its handler, as registered in `ring_rpc_init`. -/
def handle (net : Net) (fuel : Nat) (now : Nat) (s : Server) : Msg → Option World
  | Msg.join host => (join net s host).map Prod.fst
  | Msg.set_next host => set_next net fuel now s host
  | Msg.set_prev host => some (set_prev s host)
  | Msg.list l => list net fuel now s l
  | Msg.election l => election net fuel now s l
  | Msg.coordinator l ttl => coordinator net fuel now s ⟨ttl, l⟩

/-- The server `a` ends a handler run in world `w`: its state is stored and the messages it
sent are put on the wire. -/
def Cluster.commit (c : Cluster) (a : String) (w : World) (wire : List (String × Msg))
    (handled : List (String × Msg)) : Cluster :=
  { nodes := Function.update c.nodes a (some w.srv)
    wire := wire ++ accepted w.sent
    handled := handled
    clock := c.clock + 1 }

/-- The oldest message on the wire is handled by its target.  `none` when the handler fails. -/
def deliver (fuel : Nat) (c : Cluster) : Option Cluster :=
  match c.wire with
  | [] => some c
  | (a, m) :: rest =>
    match c.nodes a with
    | none => some { c with wire := rest }
    | some s =>
      match handle c.net fuel c.clock s m with
      | none => none
      | some w => some (c.commit a w rest (c.handled ++ [(a, m)]))

/-- The server `a` runs `ring_start_election()`. -/
def start_election_at (fuel : Nat) (c : Cluster) (a : String) : Option Cluster :=
  match c.nodes a with
  | none => none
  | some s =>
    match ring_start_election c.net fuel c.clock ⟨s, []⟩ with
    | none => none
    | some w => some (c.commit a w c.wire c.handled)

/-- Handling of `k` messages in a row. -/
def run (fuel : Nat) : Nat → Cluster → Option Cluster
  | 0, c => some c
  | k + 1, c => (deliver fuel c).bind (run fuel k)

/-- The value of a role at the server named `a`. -/
def Cluster.role (c : Cluster) (f : Ring → Option String) (a : Option String) :
    Option String :=
  match a with
  | none => none
  | some x =>
    match c.nodes x with
    | none => none
    | some s => f s.ring

/-- The entry `L[z mod n]` of a list of length `n`, with the non-negative remainder. -/
def at_mod (L : List String) (z : Int) : Option String :=
  L.get? (z % (L.length : Int)).toNat

/-- The node at position `k` of the cycle `ns`, positions counted modulo the length. -/
def nth (ns : List String) (k : Nat) : String :=
  ns.getD (k % ns.length) ""

/-- The servers named in `ns` are live and their `next` and `prev` pointers form one
consistent cycle, in the order of `ns`. -/
abbrev RingOf (ns : List String) (c : Cluster) : Prop :=
  ∀ k, k < ns.length →
    c.role (fun r => some r.self) (some (nth ns k)) = some (nth ns k) ∧
    c.role Ring.next (some (nth ns k)) = some (nth ns (k + 1)) ∧
    c.role Ring.prev (some (nth ns k)) = some (nth ns (k + ns.length - 1))

/-- The server `x` has taken over a coordinator message with the list `L`: its membership
list is `L`, its two-hop pointers are those the handler computes from `L`, and its latch
is set. -/
def Updated (c : Cluster) (L : List String) (x : String) : Prop :=
  ∃ s, c.nodes x = some s ∧ s.ring_list = L ∧ s.coordinator_rpc_done = true ∧
    s.ring.next_next = at_mod L ((search x L : Int) + 2) ∧
    s.ring.prev_prev = at_mod L ((search x L : Int) - 2)

/-- The handler invocations of the election lap started by the head of `ns`. -/
def election_lap (ns : List String) : List (String × Msg) :=
  (List.range ns.length).map fun t => (nth ns (t + 1), Msg.election (ns.take (t + 1)))

/-- The handler invocations of a lap of the coordinator message `L` sent by the head of
`ns`: the TTL goes from `n - 1` down to `0`. -/
def coordinator_lap (ns L : List String) : List (String × Msg) :=
  (List.range ns.length).map fun t =>
    (nth ns (t + 1), Msg.coordinator L ((ns.length : Int) - 1 - (t : Int)))

/-- The targets of the `coordinator` handler invocations of a log, in order. -/
def coordinator_targets (log : List (String × Msg)) : List String :=
  log.filterMap fun p =>
    match p.2 with
    | Msg.coordinator _ _ => some p.1
    | _ => none

/-! ## Sample networks, servers and clusters -/

/-- A network on which every RPC succeeds. -/
def all_up : Net :=
  fun _ _ _ => true

/-- A network on which the RPCs to `B` fail and all others succeed. -/
def B_down : Net :=
  fun _ server _ => server != some "B"

/-- A network on which the first RPC of a handler run fails and the later ones succeed. -/
def first_fails : Net :=
  fun k _ _ => k != 0

/-- A server that has not yet handled a coordinator message, with the given roles. -/
def server_of (self next prev next_next prev_prev : String) : Server :=
  { ring := ⟨self, some next, some prev, some next_next, some prev_prev⟩
    ring_list := [self]
    heartbeat_time := 0
    coordinator_rpc_done := false }

/-- The four servers of the ring `A → B → C → D → A`, each started alone (its two-hop
pointers are itself) and then linked to its neighbours. -/
def ring4 : Cluster :=
  { nodes := fun a =>
      if a = "A" then some (server_of "A" "B" "D" "A" "A")
      else if a = "B" then some (server_of "B" "C" "A" "B" "B")
      else if a = "C" then some (server_of "C" "D" "B" "C" "C")
      else if a = "D" then some (server_of "D" "A" "C" "D" "D")
      else none
    wire := []
    handled := []
    clock := 0 }

/-! ## The joining side and further samples -/

/-- Modelled from the spec: the joining side of the join protocol.  The caller of
`ring_rpc_join` is absent from the sources; by the spec the new server installs the
response of the bootstrap peer as its `prev` and the bootstrap peer as its `next`.
The bootstrap peer runs the `join` handler of `ring_rpc.c`. -/
def join_at (c : Cluster) (joiner bootstrap : String) : Option Cluster :=
  match c.nodes bootstrap, c.nodes joiner with
  | some b, some j =>
    match join c.net b joiner with
    | some (w, some reply) =>
      let c1 := c.commit bootstrap w c.wire (c.handled ++ [(bootstrap, Msg.join joiner)])
      let r1 : Ring := { j.ring with prev := some reply, next := some bootstrap }
      let j1 : Server := { j with ring := r1 }
      some { c1 with nodes := Function.update c1.nodes joiner (some j1) }
    | _ => none
  | _, _ => none

/-- Two servers `A` and `B`, each started alone: all its roles are itself. -/
def two_alone : Cluster :=
  { nodes := fun a =>
      if a = "A" then some (server_of "A" "A" "A" "A" "A")
      else if a = "B" then some (server_of "B" "B" "B" "B" "B")
      else none
    wire := []
    handled := []
    clock := 0 }

/-- The ring `A → B → C → D → A` after a coordinator lap, with `B` dead, at the moment the
election message `[A, B, C, D]` comes back to `A`. -/
def ring4_B_dead : Cluster :=
  { nodes := fun a =>
      if a = "A" then some (server_of "A" "B" "D" "C" "C")
      else if a = "C" then some (server_of "C" "D" "B" "A" "A")
      else if a = "D" then some (server_of "D" "A" "C" "B" "B")
      else none
    wire := [("A", Msg.election ["A", "B", "C", "D"])]
    handled := []
    clock := 0 }

/-- The ring `A → B → C → D → A` with `B` dead, after `A` has handled the election message
`[A, B, C, D]` up to the point where its process ends: `A` is dead as well, and the two
messages it had sent to `C` (see `ring4_B_dead`) are on the wire. -/
def ring4_A_aborted : Cluster :=
  { nodes := fun a =>
      if a = "C" then some (server_of "C" "D" "B" "A" "A")
      else if a = "D" then some (server_of "D" "A" "C" "B" "B")
      else none
    wire := [("C", Msg.set_prev "A"), ("C", Msg.coordinator ["A", "C", "D"] 2)]
    handled := [("A", Msg.election ["A", "B", "C", "D"])]
    clock := 1 }

/-- The server `A` of the two-node ring `A → B → A` after it has handled the coordinator
message `([A, B], 0)`. -/
def two_ring_A : Server :=
  { ring := ⟨"A", some "B", some "B", some "A", some "A"⟩
    ring_list := ["A", "B"]
    heartbeat_time := 0
    coordinator_rpc_done := true }

/-! ## The list search -/

theorem search_le (h : String) (L : List String) : search h L ≤ L.length := by
  induction L with
  | nil => simp [search]
  | cons x xs ih =>
    by_cases hx : x = h
    · simp [search, hx]
    · simp [search, hx, ih]

theorem search_of_first (h : String) (L : List String) (i : Nat) (hi : i < L.length)
    (hat : L.get? i = some h) (hbefore : ∀ j, j < i → L.get? j ≠ some h) :
    search h L = i := by
  induction L generalizing i with
  | nil => simp at hi
  | cons x xs ih =>
    cases i with
    | zero =>
      simp at hat
      simp [search, hat]
    | succ k =>
      have hx : x ≠ h := by
        have := hbefore 0 (Nat.succ_pos k)
        simpa using this
      have hk : k < xs.length := by simpa using hi
      have := ih k hk (by simpa using hat) (fun j hj => by
        have := hbefore (j + 1) (Nat.succ_lt_succ hj)
        simpa using this)
      simp [search, hx, this]

theorem search_of_not_mem (h : String) (L : List String) (hn : h ∉ L) :
    search h L = L.length := by
  induction L with
  | nil => simp [search]
  | cons x xs ih =>
    have hx : x ≠ h := fun e => hn (by simp [e])
    have : h ∉ xs := fun e => hn (by simp [e])
    simp [search, hx, ih this]

theorem search_lt_of_mem (h : String) (L : List String) (hm : h ∈ L) :
    search h L < L.length := by
  induction L with
  | nil => simp at hm
  | cons x xs ih =>
    by_cases hx : x = h
    · simp [search, hx]
    · have : h ∈ xs := by
        rcases List.mem_cons.mp hm with e | e
        · exact absurd e.symm hx
        · exact e
      simp [search, hx, ih this]

theorem search_take_append (x : String) (P Q : List String) (hx : x ∉ P) :
    search x (P ++ x :: Q) = P.length := by
  induction P with
  | nil => simp [search]
  | cons y ys ih =>
    have hy : y ≠ x := fun e => hx (by simp [e])
    have hys : x ∉ ys := fun e => hx (by simp [e])
    simp [search, hy, ih hys]

/-! ## The index computations of the `coordinator` handler -/

theorem wrap_loop_eq (n : Int) (fuel : Nat) (i : Int)
    (hlo : -((fuel : Int) * n) ≤ i) (hhi : i < n) :
    wrap_loop n fuel i = some (i % n) := by
  induction fuel generalizing i with
  | zero =>
    have h0 : 0 ≤ i := by simpa using hlo
    simp [wrap_loop, not_lt.mpr h0, Int.emod_eq_of_lt h0 hhi]
  | succ k ih =>
    by_cases hneg : i < 0
    · have hlo2 : -((k : Int) * n) ≤ i + n := by
        have : ((k + 1 : Nat) : Int) * n = (k : Int) * n + n := by push_cast; ring
        rw [this] at hlo
        linarith
      have := ih (i + n) hlo2 (by linarith)
      simp [wrap_loop, hneg, this]
    · have h0 : 0 ≤ i := not_lt.mp hneg
      simp [wrap_loop, hneg, Int.emod_eq_of_lt h0 hhi]

theorem at_mod_isSome (L : List String) (hL : L ≠ []) (z : Int) : (at_mod L z).isSome = true := by
  have hn : (0 : Int) < L.length := by
    have := List.length_pos.mpr hL
    exact_mod_cast this
  have h1 : 0 ≤ z % (L.length : Int) := Int.emod_nonneg _ (ne_of_gt hn)
  have h2 : z % (L.length : Int) < L.length := Int.emod_lt_of_pos _ hn
  have h3 : (z % (L.length : Int)).toNat < L.length := by omega
  unfold at_mod
  rw [List.get?_eq_get h3]
  rfl

theorem coordinator_update_eq (fuel : Nat) (w : World) (c : coordinator_t) (hL : c.list ≠ []) :
    coordinator_update (fuel + 4) w c =
      some { srv := { ring := { w.srv.ring with
                                next_next := at_mod c.list ((search w.srv.ring.self c.list : Int) + 2)
                                prev_prev := at_mod c.list ((search w.srv.ring.self c.list : Int) - 2) }
                      ring_list := c.list
                      heartbeat_time := w.srv.heartbeat_time
                      coordinator_rpc_done := true }
             sent := w.sent } := by
  have hn : (0 : Int) < c.list.length := by
    have := List.length_pos.mpr hL
    exact_mod_cast this
  have hn0 : (c.list.length : Int) ≠ 0 := ne_of_gt hn
  set i : Int := (search w.srv.ring.self c.list : Int) with hi
  have hi0 : 0 ≤ i + 2 := by omega
  have htm : Int.tmod (i + 2) c.list.length = (i + 2) % (c.list.length : Int) :=
    Int.tmod_eq_emod hi0 (le_of_lt hn)
  have hj0 : 0 ≤ (i + 2) % (c.list.length : Int) := Int.emod_nonneg _ hn0
  have hjn : (i + 2) % (c.list.length : Int) < c.list.length := Int.emod_lt_of_pos _ hn
  have hwrap := wrap_loop_eq c.list.length (fuel + 4) ((i + 2) % (c.list.length : Int) - 4)
    (by
      have : ((fuel + 4 : Nat) : Int) * (c.list.length : Int) ≥ 4 := by
        have h4 : ((fuel + 4 : Nat) : Int) ≥ 4 := by push_cast; omega
        nlinarith
      linarith) (by linarith)
  have hmod : ((i + 2) % (c.list.length : Int) - 4) % (c.list.length : Int)
      = (i - 2) % (c.list.length : Int) := by
    have : i - 2 = (i + 2) - 4 := by ring
    rw [this, Int.sub_emod, Int.emod_emod_of_dvd _ (dvd_refl _), ← Int.sub_emod]
  rw [hmod] at hwrap
  have s1 := at_mod_isSome c.list hL (i + 2)
  have s2 := at_mod_isSome c.list hL (i - 2)
  obtain ⟨h1, e1⟩ := Option.isSome_iff_exists.mp s1
  obtain ⟨h2, e2⟩ := Option.isSome_iff_exists.mp s2
  have e1' := e1
  have e2' := e2
  unfold at_mod at e1' e2'
  unfold coordinator_update
  simp only [← hi, ring_list_update, htm, hwrap, e1, e2, e1', e2', hn0, if_false,
    not_lt.mpr hj0, ring_set_next_next, ring_set_prev_prev]

theorem coordinator_loop_first (net : Net) (fuel : Nat) (w : World) (c : coordinator_t)
    (h : net w.sent.length w.srv.ring.next (Msg.coordinator c.list c.ttl) = true) :
    coordinator_loop net (fuel + 1) w c =
      some ({ w with sent := w.sent ++ [⟨w.srv.ring.next, Msg.coordinator c.list c.ttl, true⟩] },
        c) := by
  simp [coordinator_loop, ring_rpc_coordinator, forward, h]

/-- The `coordinator` handler when the message is not pruned: either there is no forward or
the first forward succeeds. -/
theorem coordinator_eq (net : Net) (fuel now : Nat) (s : Server) (L : List String) (ttl : Int)
    (hL : L ≠ [])
    (hfw : 0 < ttl → net 0 s.ring.next (Msg.coordinator L (ttl - 1)) = true) :
    coordinator net (fuel + 4) now s ⟨ttl, L⟩ =
      some { srv := { ring := { s.ring with
                                next_next := at_mod L ((search s.ring.self L : Int) + 2)
                                prev_prev := at_mod L ((search s.ring.self L : Int) - 2) }
                      ring_list := L
                      heartbeat_time := now
                      coordinator_rpc_done := true }
             sent := if 0 < ttl then [⟨s.ring.next, Msg.coordinator L (ttl - 1), true⟩]
                     else [] } := by
  unfold coordinator
  by_cases ht : 0 < ttl
  · have h := hfw ht
    have hloop := coordinator_loop_first net (fuel + 3) ⟨{ s with heartbeat_time := now }, []⟩
      ⟨ttl - 1, L⟩ (by simpa using h)
    simp only [gt_iff_lt, ht, if_true, hloop]
    rw [coordinator_update_eq fuel _ _ (by simpa using hL)]
    simp
  · simp only [gt_iff_lt, ht, if_false]
    rw [coordinator_update_eq fuel _ _ (by simpa using hL)]

/-! ## The `election` handler -/

theorem election_loop_first (net : Net) (fuel : Nat) (w : World) (list : Option (List String))
    (h : net w.sent.length w.srv.ring.next
      (Msg.election (match list with
        | none => [w.srv.ring.self]
        | some l => l ++ [w.srv.ring.self])) = true) :
    election_loop net list (fuel + 1) w =
      some { w with sent := w.sent ++ [⟨w.srv.ring.next,
        Msg.election (match list with
          | none => [w.srv.ring.self]
          | some l => l ++ [w.srv.ring.self]), true⟩] } := by
  cases list with
  | none =>
    simp only at h
    simp [election_loop, ring_rpc_election, forward, h]
  | some l =>
    simp only at h
    simp [election_loop, ring_rpc_election, forward, h]

theorem election_not_mem_eq (net : Net) (fuel now : Nat) (s : Server) (L : List String)
    (hn : s.ring.self ∉ L)
    (h : net 0 s.ring.next (Msg.election (L ++ [s.ring.self])) = true) :
    election net (fuel + 1) now s L =
      some { srv := { s with heartbeat_time := now }
             sent := [⟨s.ring.next, Msg.election (L ++ [s.ring.self]), true⟩] } := by
  have := election_loop_first net fuel ⟨{ s with heartbeat_time := now }, []⟩ (some L)
    (by simpa using h)
  simp [election, search_of_not_mem _ _ hn, this]

theorem election_mem_eq (net : Net) (fuel now : Nat) (s : Server) (L : List String)
    (hm : s.ring.self ∈ L)
    (h : net 0 s.ring.next (Msg.coordinator L ((L.length : Int) - 1)) = true) :
    election net (fuel + 1) now s L =
      some { srv := { s with heartbeat_time := now }
             sent := [⟨s.ring.next, Msg.coordinator L ((L.length : Int) - 1), true⟩] } := by
  have hlt := search_lt_of_mem _ _ hm
  have hloop := coordinator_loop_first net fuel ⟨{ s with heartbeat_time := now }, []⟩
    ⟨(L.length : Int) - 1, L⟩ (by simpa using h)
  simp [election, ne_of_lt hlt, hloop]

/-! ## Positions on the cycle -/

theorem length_pos_of_ne_nil {ns : List String} (hne : ns ≠ []) : 0 < ns.length :=
  List.length_pos.mpr hne

theorem nth_eq_get (ns : List String) (k : Nat) (hk : k < ns.length) :
    ns.get? k = some (nth ns k) := by
  unfold nth
  rw [Nat.mod_eq_of_lt hk, List.getD_eq_getElem?_getD, List.get?_eq_getElem?]
  rw [List.getElem?_eq_getElem hk]
  rfl

theorem nth_mod (ns : List String) (k : Nat) : nth ns (k % ns.length) = nth ns k := by
  unfold nth
  rw [Nat.mod_mod]

theorem nth_congr (ns : List String) (a b : Nat) (h : a % ns.length = b % ns.length) :
    nth ns a = nth ns b := by
  unfold nth
  rw [h]

theorem nth_add_length (ns : List String) (k : Nat) : nth ns (k + ns.length) = nth ns k :=
  nth_congr ns _ _ (Nat.add_mod_right k ns.length)

theorem nth_mem (ns : List String) (hne : ns ≠ []) (k : Nat) : nth ns k ∈ ns := by
  have hlt : k % ns.length < ns.length := Nat.mod_lt _ (length_pos_of_ne_nil hne)
  have := nth_eq_get ns (k % ns.length) hlt
  rw [nth_mod] at this
  exact List.get?_mem this

theorem exists_nth_of_mem (ns : List String) (x : String) (hx : x ∈ ns) :
    ∃ k, k < ns.length ∧ nth ns k = x := by
  obtain ⟨k, hk, e⟩ := List.getElem_of_mem hx
  refine ⟨k, hk, ?_⟩
  have := nth_eq_get ns k hk
  rw [List.get?_eq_getElem?, List.getElem?_eq_getElem hk, e] at this
  exact (Option.some.inj this).symm

theorem take_succ_nth (ns : List String) (j : Nat) (hj : j < ns.length) :
    ns.take j ++ [nth ns j] = ns.take (j + 1) := by
  have := nth_eq_get ns j hj
  rw [List.take_succ, ← List.get?_eq_getElem?, this]
  rfl

theorem nth_not_mem_take (ns : List String) (hnd : ns.Nodup) (j : Nat) (hj : j < ns.length) :
    nth ns j ∉ ns.take j := by
  have h := take_succ_nth ns j hj
  have hnd2 : (ns.take (j + 1)).Nodup := hnd.sublist (List.take_sublist _ _)
  rw [← h] at hnd2
  have := List.nodup_append.mp hnd2
  intro hm
  exact this.2.2 hm (List.mem_singleton_self _)

theorem search_nth (ns : List String) (hnd : ns.Nodup) (k : Nat) (hk : k < ns.length) :
    search (nth ns k) ns = k := by
  have h1 := take_succ_nth ns k hk
  have h2 : ns = ns.take k ++ nth ns k :: ns.drop (k + 1) := by
    conv_lhs => rw [← List.take_append_drop (k + 1) ns, ← h1]
    simp
  have h3 := search_take_append (nth ns k) (ns.take k) (ns.drop (k + 1))
    (nth_not_mem_take ns hnd k hk)
  rw [← h2] at h3
  rw [h3, List.length_take]
  omega

theorem at_mod_eq_nth (ns : List String) (hne : ns ≠ []) (z : Int) (m : Nat)
    (h : z % (ns.length : Int) = ((m % ns.length : Nat) : Int)) :
    at_mod ns z = some (nth ns m) := by
  unfold at_mod
  rw [h, Int.toNat_ofNat, nth_eq_get ns _ (Nat.mod_lt _ (length_pos_of_ne_nil hne)), nth_mod]

theorem at_mod_add_two (ns : List String) (hne : ns ≠ []) (k : Nat) :
    at_mod ns ((k : Int) + 2) = some (nth ns (k + 2)) := by
  apply at_mod_eq_nth ns hne
  push_cast
  rfl

theorem at_mod_sub_two (ns : List String) (hne : ns ≠ []) (k : Nat) :
    at_mod ns ((k : Int) - 2) = some (nth ns (k + 2 * ns.length - 2)) := by
  apply at_mod_eq_nth ns hne
  have hn := length_pos_of_ne_nil hne
  have e : ((k + 2 * ns.length - 2 : Nat) : Int) = (k : Int) - 2 + 2 * (ns.length : Int) := by
    omega
  rw [Int.natCast_mod, e, Int.add_mul_emod_self]

theorem nth_rotate (ns : List String) (r k : Nat) : nth (ns.rotate r) k = nth ns (k + r) := by
  by_cases hne : ns = []
  · simp [hne, nth]
  have hn := length_pos_of_ne_nil hne
  have hlt : k % ns.length < ns.length := Nat.mod_lt _ hn
  have h1 := nth_eq_get (ns.rotate r) (k % ns.length) (by rw [List.length_rotate]; exact hlt)
  rw [List.get?_rotate hlt, nth_eq_get ns _ (Nat.mod_lt _ hn)] at h1
  have h2 := Option.some.inj h1
  rw [nth_mod] at h2
  have h3 : nth (ns.rotate r) (k % ns.length) = nth (ns.rotate r) k := by
    apply nth_congr
    rw [List.length_rotate, Nat.mod_mod]
  rw [← h3, ← h2]
  apply nth_congr
  rw [Nat.add_mod, Nat.mod_mod, ← Nat.add_mod]

theorem list_eq_map_nth (M : List String) : M = (List.range M.length).map (nth M) := by
  apply List.ext_get?
  intro i
  by_cases hi : i < M.length
  · rw [nth_eq_get M i hi]
    simp [List.get?_eq_getElem?, hi]
  · have hi2 : M.length ≤ i := not_lt.mp hi
    rw [List.get?_eq_none.mpr hi2, List.get?_eq_none.mpr (by simpa using hi2)]

/-! ## Steps of a cluster -/

theorem net_live (c : Cluster) (a : String) (s : Server) (h : c.nodes a = some s) (k : Nat)
    (m : Msg) : c.net k (some a) m = true := by
  simp [Cluster.net, h]

theorem deliver_cons (fuel : Nat) (c : Cluster) (a : String) (m : Msg)
    (rest : List (String × Msg)) (s : Server) (w : World)
    (hw : c.wire = (a, m) :: rest) (hs : c.nodes a = some s)
    (hh : handle c.net fuel c.clock s m = some w) :
    deliver fuel c = some (c.commit a w rest (c.handled ++ [(a, m)])) := by
  unfold deliver
  rw [hw]
  simp only [hs, hh]

theorem run_add (fuel a b : Nat) (c : Cluster) :
    run fuel (a + b) c = (run fuel a c).bind (run fuel b) := by
  induction a generalizing c with
  | zero => simp [run]
  | succ k ih =>
    rw [Nat.succ_add]
    simp only [run]
    cases h : deliver fuel c with
    | none => simp
    | some c1 => simp [ih]

/-- Iteration of a step that takes the `j`-th invariant to the next one. -/
theorem run_steps (fuel : Nat) (P : Nat → Cluster → Prop) (m : Nat)
    (step : ∀ j c, j < m → P j c → ∃ c1, deliver fuel c = some c1 ∧ P (j + 1) c1)
    (c : Cluster) (h0 : P 0 c) : ∃ c1, run fuel m c = some c1 ∧ P m c1 := by
  suffices H : ∀ k j c, j + k = m → P j c → ∃ c1, run fuel k c = some c1 ∧ P m c1 from
    H m 0 c (by omega) h0
  intro k
  induction k with
  | zero =>
    intro j c hj hP
    have : j = m := by omega
    exact ⟨c, rfl, this ▸ hP⟩
  | succ k ih =>
    intro j c hj hP
    obtain ⟨c1, hd, hP1⟩ := step j c (by omega) hP
    obtain ⟨c2, hr, hP2⟩ := ih (j + 1) c1 (by omega) hP1
    exact ⟨c2, by simp [run, hd, hr], hP2⟩

theorem ringOf_node (ns : List String) (c : Cluster) (hne : ns ≠ []) (h : RingOf ns c)
    (k : Nat) :
    ∃ s, c.nodes (nth ns k) = some s ∧ s.ring.self = nth ns k ∧
      s.ring.next = some (nth ns (k + 1)) ∧ s.ring.prev = some (nth ns (k + ns.length - 1)) := by
  have hn := length_pos_of_ne_nil hne
  have hk := h (k % ns.length) (Nat.mod_lt _ hn)
  rw [nth_mod] at hk
  have e1 : nth ns (k % ns.length + 1) = nth ns (k + 1) :=
    nth_congr ns _ _ (by rw [Nat.add_mod, Nat.mod_mod, ← Nat.add_mod])
  have e2 : nth ns (k % ns.length + ns.length - 1) = nth ns (k + ns.length - 1) := by
    apply nth_congr
    have a1 : k % ns.length + ns.length - 1 = k % ns.length + (ns.length - 1) := by omega
    have a2 : k + ns.length - 1 = k + (ns.length - 1) := by omega
    rw [a1, a2, Nat.add_mod, Nat.mod_mod, ← Nat.add_mod]
  rw [e1, e2] at hk
  obtain ⟨h1, h2, h3⟩ := hk
  unfold Cluster.role at h1 h2 h3
  cases hs : c.nodes (nth ns k) with
  | none => simp [hs] at h1
  | some s =>
    simp only [hs] at h1 h2 h3
    exact ⟨s, rfl, Option.some.inj h1, h2, h3⟩

theorem ringOf_commit (ns : List String) (c : Cluster) (h : RingOf ns c) (a : String)
    (s : Server) (w : World) (wire handled : List (String × Msg)) (hs : c.nodes a = some s)
    (hr1 : w.srv.ring.self = s.ring.self) (hr2 : w.srv.ring.next = s.ring.next)
    (hr3 : w.srv.ring.prev = s.ring.prev) : RingOf ns (c.commit a w wire handled) := by
  intro k hk
  have := h k hk
  unfold Cluster.role at this ⊢
  unfold Cluster.commit
  by_cases e : nth ns k = a
  · rw [e] at this
    simp only [hs] at this
    rw [e]
    simp only [Function.update_same, hr1, hr2, hr3]
    exact this
  · simp only [Function.update_noteq e]
    exact this

theorem ringOf_rotate (ns : List String) (c : Cluster) (r : Nat) (h : RingOf ns c) :
    RingOf (ns.rotate r) c := by
  by_cases hne : ns = []
  · simpa [hne] using h
  intro k _
  obtain ⟨s, hs, h1, h2, h3⟩ := ringOf_node ns c hne h (k + r)
  rw [nth_rotate, nth_rotate, nth_rotate, List.length_rotate]
  have e1 : nth ns (k + 1 + r) = nth ns (k + r + 1) := by
    congr 1
    omega
  have e2 : nth ns (k + ns.length - 1 + r) = nth ns (k + r + ns.length - 1) := by
    have hn := length_pos_of_ne_nil hne
    congr 1
    omega
  rw [e1, e2]
  unfold Cluster.role
  simp only [hs, h1, h2, h3, and_self]

theorem ringOf_of_rotate (ns : List String) (c : Cluster) (r : Nat)
    (h : RingOf (ns.rotate r) c) : RingOf ns c := by
  have h2 := ringOf_rotate (ns.rotate r) c (ns.length - r % ns.length) h
  have e : (ns.rotate r).rotate (ns.length - r % ns.length) = ns := by
    by_cases hne : ns = []
    · simp [hne]
    have hn := length_pos_of_ne_nil hne
    have hlt := Nat.mod_lt r hn
    rw [← List.rotate_mod ns r, List.rotate_rotate]
    have : r % ns.length + (ns.length - r % ns.length) = ns.length := by omega
    rw [this, List.rotate_length]
  rw [e] at h2
  exact h2

theorem updated_commit (c : Cluster) (L : List String) (x a : String) (w : World)
    (wire handled : List (String × Msg)) (h : Updated c L x)
    (ha : Updated (c.commit a w wire handled) L a) :
    Updated (c.commit a w wire handled) L x := by
  by_cases e : x = a
  · rw [e]
    exact ha
  · obtain ⟨s, hs, rest⟩ := h
    exact ⟨s, by simp [Cluster.commit, Function.update_noteq e, hs], rest⟩

/-! ## Laps of the election and coordinator messages -/

/-- One hop of a coordinator message around the cycle `ns`. -/
theorem coordinator_hop (fuel : Nat) (ns L : List String) (hne : ns ≠ []) (hL : L ≠ [])
    (H0 : List (String × Msg)) (j : Nat) (c : Cluster) (hj : j < ns.length)
    (hR : RingOf ns c)
    (hwire : c.wire = [(nth ns (j + 1), Msg.coordinator L ((ns.length : Int) - 1 - (j : Int)))])
    (hupd : ∀ k, 1 ≤ k → k ≤ j → Updated c L (nth ns k))
    (hhand : c.handled = H0 ++ (List.range j).map fun t =>
      (nth ns (t + 1), Msg.coordinator L ((ns.length : Int) - 1 - (t : Int)))) :
    ∃ c1, deliver (fuel + 4) c = some c1 ∧ RingOf ns c1 ∧
      c1.wire = (if j + 1 < ns.length then
        [(nth ns (j + 1 + 1), Msg.coordinator L ((ns.length : Int) - 1 - ((j + 1 : Nat) : Int)))]
        else []) ∧
      (∀ k, 1 ≤ k → k ≤ j + 1 → Updated c1 L (nth ns k)) ∧
      c1.handled = H0 ++ (List.range (j + 1)).map fun t =>
        (nth ns (t + 1), Msg.coordinator L ((ns.length : Int) - 1 - (t : Int))) := by
  obtain ⟨s, hs, hself, hnext, _⟩ := ringOf_node ns c hne hR (j + 1)
  obtain ⟨s2, hs2, _, _, _⟩ := ringOf_node ns c hne hR (j + 1 + 1)
  have hfw : 0 < (ns.length : Int) - 1 - (j : Int) →
      c.net 0 s.ring.next (Msg.coordinator L ((ns.length : Int) - 1 - (j : Int) - 1)) = true := by
    intro _
    rw [hnext]
    exact net_live c _ s2 hs2 _ _
  have hh := coordinator_eq c.net fuel c.clock s L _ hL hfw
  have hd := deliver_cons (fuel + 4) c _ _ [] s _ hwire hs hh
  refine ⟨_, hd, ?_, ?_, ?_, ?_⟩
  · exact ringOf_commit ns c hR _ s _ _ _ hs rfl rfl rfl
  · by_cases hlt : j + 1 < ns.length
    · have hpos : 0 < (ns.length : Int) - 1 - (j : Int) := by omega
      have e : (ns.length : Int) - 1 - (j : Int) - 1 = (ns.length : Int) - 1 - ((j + 1 : Nat) : Int) := by
        push_cast
        ring
      simp [Cluster.commit, accepted, hlt, hpos, hnext, e]
    · have hpos : ¬ 0 < (ns.length : Int) - 1 - (j : Int) := by omega
      simp [Cluster.commit, accepted, hlt, hpos]
  · have ha : Updated (c.commit (nth ns (j + 1))
        { srv := { ring := { s.ring with
                      next_next := at_mod L ((search s.ring.self L : Int) + 2)
                      prev_prev := at_mod L ((search s.ring.self L : Int) - 2) }
                   ring_list := L
                   heartbeat_time := c.clock
                   coordinator_rpc_done := true }
          sent := if 0 < (ns.length : Int) - 1 - (j : Int) then
              [⟨s.ring.next, Msg.coordinator L ((ns.length : Int) - 1 - (j : Int) - 1), true⟩]
            else [] }
        [] (c.handled ++ [(nth ns (j + 1), Msg.coordinator L ((ns.length : Int) - 1 - (j : Int)))]))
        L (nth ns (j + 1)) := by
      refine ⟨{ ring := { s.ring with
                      next_next := at_mod L ((search s.ring.self L : Int) + 2)
                      prev_prev := at_mod L ((search s.ring.self L : Int) - 2) }
                ring_list := L
                heartbeat_time := c.clock
                coordinator_rpc_done := true }, by simp [Cluster.commit], rfl, rfl, ?_, ?_⟩
      · simp [hself]
      · simp [hself]
    intro k hk1 hk2
    by_cases e : k = j + 1
    · rw [e]
      exact ha
    · exact updated_commit c L _ _ _ _ _ (hupd k hk1 (by omega)) ha
  · simp [Cluster.commit, hhand, List.range_succ]

/-- A coordinator message `(L, n - 1)` sent by the head of the cycle `ns` to its successor
makes one lap: every server handles it once and takes over `L`. -/
theorem coordinator_lap_run (fuel : Nat) (ns L : List String) (hne : ns ≠ []) (hL : L ≠ [])
    (c : Cluster) (hR : RingOf ns c)
    (hwire : c.wire = [(nth ns 1, Msg.coordinator L ((ns.length : Int) - 1))]) :
    ∃ c1, run (fuel + 4) ns.length c = some c1 ∧ RingOf ns c1 ∧ c1.wire = [] ∧
      (∀ x, x ∈ ns → Updated c1 L x) ∧
      c1.handled = c.handled ++ coordinator_lap ns L := by
  have hn := length_pos_of_ne_nil hne
  obtain ⟨c1, hrun, h1, h2, h3, h4⟩ := run_steps (fuel + 4)
    (fun j c1 => RingOf ns c1 ∧
      c1.wire = (if j < ns.length then
        [(nth ns (j + 1), Msg.coordinator L ((ns.length : Int) - 1 - (j : Int)))] else []) ∧
      (∀ k, 1 ≤ k → k ≤ j → Updated c1 L (nth ns k)) ∧
      c1.handled = c.handled ++ (List.range j).map fun t =>
        (nth ns (t + 1), Msg.coordinator L ((ns.length : Int) - 1 - (t : Int))))
    ns.length
    (by
      intro j c1 hj ⟨a1, a2, a3, a4⟩
      rw [if_pos hj] at a2
      exact coordinator_hop fuel ns L hne hL c.handled j c1 hj a1 a2 a3 a4)
    c ⟨hR, by simp [hn, hwire], by intro k hk1 hk2; omega, by simp⟩
  refine ⟨c1, hrun, h1, by simpa using h2, ?_, h4⟩
  intro x hx
  obtain ⟨k, hk, e⟩ := exists_nth_of_mem ns x hx
  rw [← e]
  by_cases h0 : k = 0
  · have := h3 ns.length hn (le_refl _)
    have e2 : nth ns ns.length = nth ns k := by
      rw [h0]
      exact nth_congr ns _ _ (by simp)
    rw [e2] at this
    exact this
  · exact h3 k (by omega) (le_of_lt hk)

/-- One hop of an election message that has not yet completed its lap. -/
theorem election_hop (fuel : Nat) (ns : List String) (hne : ns ≠ []) (hnd : ns.Nodup)
    (H0 : List (String × Msg)) (t : Nat) (c : Cluster) (ht : t + 1 < ns.length)
    (hR : RingOf ns c)
    (hwire : c.wire = [(nth ns (t + 1), Msg.election (ns.take (t + 1)))])
    (hhand : c.handled = H0 ++ (List.range t).map fun u =>
      (nth ns (u + 1), Msg.election (ns.take (u + 1)))) :
    ∃ c1, deliver (fuel + 1) c = some c1 ∧ RingOf ns c1 ∧
      c1.wire = [(nth ns (t + 1 + 1), Msg.election (ns.take (t + 1 + 1)))] ∧
      c1.handled = H0 ++ (List.range (t + 1)).map fun u =>
        (nth ns (u + 1), Msg.election (ns.take (u + 1))) := by
  obtain ⟨s, hs, hself, hnext, _⟩ := ringOf_node ns c hne hR (t + 1)
  obtain ⟨s2, hs2, _, _, _⟩ := ringOf_node ns c hne hR (t + 1 + 1)
  have hnm : s.ring.self ∉ ns.take (t + 1) := by
    rw [hself]
    exact nth_not_mem_take ns hnd (t + 1) ht
  have hfw : c.net 0 s.ring.next (Msg.election (ns.take (t + 1) ++ [s.ring.self])) = true := by
    rw [hnext]
    exact net_live c _ s2 hs2 _ _
  have hh : handle c.net (fuel + 1) c.clock s (Msg.election (ns.take (t + 1))) = _ :=
    election_not_mem_eq c.net fuel c.clock s _ hnm hfw
  have hd := deliver_cons (fuel + 1) c _ _ [] s _ hwire hs hh
  refine ⟨_, hd, ?_, ?_, ?_⟩
  · exact ringOf_commit ns c hR _ s _ _ _ hs rfl rfl rfl
  · simp [Cluster.commit, accepted, hnext, hself, take_succ_nth ns (t + 1) ht]
  · simp [Cluster.commit, hhand, List.range_succ]

/-- The election message returns to the head of the cycle, which emits the coordinator
message. -/
theorem election_last_hop (fuel : Nat) (ns : List String) (hne : ns ≠ [])
    (H0 : List (String × Msg)) (c : Cluster) (hR : RingOf ns c)
    (hwire : c.wire = [(nth ns ns.length, Msg.election ns)])
    (hhand : c.handled = H0 ++ (List.range (ns.length - 1)).map fun u =>
      (nth ns (u + 1), Msg.election (ns.take (u + 1)))) :
    ∃ c1, deliver (fuel + 1) c = some c1 ∧ RingOf ns c1 ∧
      c1.wire = [(nth ns 1, Msg.coordinator ns ((ns.length : Int) - 1))] ∧
      c1.handled = H0 ++ election_lap ns := by
  have hn := length_pos_of_ne_nil hne
  obtain ⟨s, hs, hself, hnext, _⟩ := ringOf_node ns c hne hR ns.length
  obtain ⟨s2, hs2, _, _, _⟩ := ringOf_node ns c hne hR (ns.length + 1)
  have hm : s.ring.self ∈ ns := by
    rw [hself]
    exact nth_mem ns hne _
  have hfw : c.net 0 s.ring.next (Msg.coordinator ns ((ns.length : Int) - 1)) = true := by
    rw [hnext]
    exact net_live c _ s2 hs2 _ _
  have hh : handle c.net (fuel + 1) c.clock s (Msg.election ns) = _ :=
    election_mem_eq c.net fuel c.clock s _ hm hfw
  have hd := deliver_cons (fuel + 1) c _ _ [] s _ hwire hs hh
  have e1 : nth ns (ns.length + 1) = nth ns 1 := by
    rw [Nat.add_comm]
    exact nth_add_length ns 1
  have e2 : ns.length = (ns.length - 1) + 1 := by omega
  refine ⟨_, hd, ?_, ?_, ?_⟩
  · exact ringOf_commit ns c hR _ s _ _ _ hs rfl rfl rfl
  · simp [Cluster.commit, accepted, hnext, e1]
  · have e3 : election_lap ns = ((List.range (ns.length - 1)).map fun u =>
        (nth ns (u + 1), Msg.election (ns.take (u + 1)))) ++
        [(nth ns ns.length, Msg.election ns)] := by
      unfold election_lap
      conv_lhs => rw [e2, List.range_succ]
      simp [← e2]
    simp [Cluster.commit, hhand, e3]

/-- An election started by the head of the cycle `ns` makes its lap, and so does the
coordinator message that it ends in. -/
theorem full_lap (fuel : Nat) (ns : List String) (hne : ns ≠ []) (hnd : ns.Nodup)
    (c : Cluster) (hR : RingOf ns c) (hwire : c.wire = []) :
    ∃ c1 c2, start_election_at (fuel + 4) c (nth ns 0) = some c1 ∧
      run (fuel + 4) (2 * ns.length) c1 = some c2 ∧ RingOf ns c2 ∧ c2.wire = [] ∧
      (∀ x, x ∈ ns → Updated c2 ns x) ∧
      c2.handled = c.handled ++ election_lap ns ++ coordinator_lap ns ns := by
  have hn := length_pos_of_ne_nil hne
  obtain ⟨s, hs, hself, hnext, _⟩ := ringOf_node ns c hne hR 0
  obtain ⟨s2, hs2, _, _, _⟩ := ringOf_node ns c hne hR 1
  have hfw : c.net 0 s.ring.next (Msg.election [s.ring.self]) = true := by
    rw [hnext]
    exact net_live c _ s2 hs2 _ _
  have hloop := election_loop_first c.net (fuel + 3) ⟨{ s with heartbeat_time := c.clock }, []⟩
    none (by simpa using hfw)
  have hstart : start_election_at (fuel + 4) c (nth ns 0) =
      some (c.commit (nth ns 0)
        { srv := { s with heartbeat_time := c.clock }
          sent := [⟨s.ring.next, Msg.election [s.ring.self], true⟩] } c.wire c.handled) := by
    unfold start_election_at ring_start_election
    simp only [hs]
    rw [hloop]
    rfl
  have t1 : ns.take 1 = [nth ns 0] := by
    have := take_succ_nth ns 0 hn
    simpa using this.symm
  obtain ⟨ca, hra, a1, a2, a3⟩ := run_steps (fuel + 4)
    (fun t c1 => RingOf ns c1 ∧
      c1.wire = [(nth ns (t + 1), Msg.election (ns.take (t + 1)))] ∧
      c1.handled = c.handled ++ (List.range t).map fun u =>
        (nth ns (u + 1), Msg.election (ns.take (u + 1))))
    (ns.length - 1)
    (by
      intro t c1 ht ⟨b1, b2, b3⟩
      exact election_hop (fuel + 3) ns hne hnd c.handled t c1 (by omega) b1 b2 b3)
    (c.commit (nth ns 0)
        { srv := { s with heartbeat_time := c.clock }
          sent := [⟨s.ring.next, Msg.election [s.ring.self], true⟩] } c.wire c.handled)
    ⟨ringOf_commit ns c hR _ s _ _ _ hs rfl rfl rfl,
      by simp [Cluster.commit, accepted, hwire, hnext, hself, t1],
      by simp [Cluster.commit]⟩
  have e2 : ns.length - 1 + 1 = ns.length := by omega
  rw [e2, List.take_length] at a2
  obtain ⟨cb, hdb, b1, b2, b3⟩ := election_last_hop (fuel + 3) ns hne c.handled ca a1 a2 a3
  obtain ⟨cc, hrc, c1, c2, c3, c4⟩ := coordinator_lap_run fuel ns ns hne hne cb b1 b2
  refine ⟨_, cc, hstart, ?_, c1, c2, c3, ?_⟩
  · have e3 : 2 * ns.length = (ns.length - 1) + (1 + ns.length) := by omega
    have hdb2 : deliver (fuel + 4) ca = some cb := hdb
    rw [e3, run_add, hra, Option.some_bind, run_add]
    simp [run, hdb2, hrc]
  · rw [c4, b3]

theorem coordinator_targets_laps (ns L : List String) :
    coordinator_targets (election_lap ns ++ coordinator_lap ns L) = ns.rotate 1 := by
  have h1 : coordinator_targets (election_lap ns) = [] := by
    simp [coordinator_targets, election_lap, List.filterMap_map]
  have h2 : coordinator_targets (coordinator_lap ns L) =
      (List.range ns.length).map fun t => nth ns (t + 1) := by
    simp only [coordinator_targets, coordinator_lap, List.filterMap_map, Function.comp_def]
    exact congrFun (List.filterMap_eq_map fun t => nth ns (t + 1)) _
  have h3 := list_eq_map_nth (ns.rotate 1)
  rw [List.length_rotate] at h3
  have h4 : nth (ns.rotate 1) = fun t => nth ns (t + 1) := by
    funext t
    exact nth_rotate ns 1 t
  rw [h4] at h3
  unfold coordinator_targets at h1 h2 ⊢
  rw [List.filterMap_append, h1, h2, List.nil_append]
  exact h3.symm

/-- The two-hop pointers a server takes from the list of the cycle are the `next` of its
`next` and the `prev` of its `prev`. -/
theorem two_hop_of_updated (ns : List String) (hne : ns ≠ []) (hnd : ns.Nodup) (c : Cluster)
    (hR : RingOf ns c) (x : String) (hx : x ∈ ns) (hU : Updated c ns x) :
    c.role Ring.next_next (some x) = c.role Ring.next (c.role Ring.next (some x)) ∧
    c.role Ring.prev_prev (some x) = c.role Ring.prev (c.role Ring.prev (some x)) ∧
    (c.role Ring.next_next (some x)).isSome = true ∧
    (c.role Ring.prev_prev (some x)).isSome = true := by
  have hn := length_pos_of_ne_nil hne
  obtain ⟨k, hk, e⟩ := exists_nth_of_mem ns x hx
  obtain ⟨s, hs, _, _, hnn, hpp⟩ := hU
  rw [← e, search_nth ns hnd k hk, at_mod_add_two ns hne] at hnn
  rw [← e, search_nth ns hnd k hk, at_mod_sub_two ns hne] at hpp
  obtain ⟨s0, hs0, _, a2, a3⟩ := ringOf_node ns c hne hR k
  obtain ⟨s1, hs1, _, b2, _⟩ := ringOf_node ns c hne hR (k + 1)
  obtain ⟨s2, hs2, _, _, c3⟩ := ringOf_node ns c hne hR (k + ns.length - 1)
  rw [e] at hs0
  rw [hs] at hs0
  have es : s0 = s := (Option.some.inj hs0).symm
  rw [es] at a2 a3
  have e3 : k + ns.length - 1 + ns.length - 1 = k + 2 * ns.length - 2 := by omega
  rw [e3] at c3
  simp only [Cluster.role, hs, a2, a3, hs1, hs2, hnn, hpp, b2, c3, Option.isSome_some,
    and_self]

/-! ## Pruning of a dead peer -/

theorem search_get (h : String) (L : List String) (hm : h ∈ L) :
    L.get? (search h L) = some h := by
  induction L with
  | nil => simp at hm
  | cons x xs ih =>
    by_cases hx : x = h
    · simp [search, hx]
    · have : h ∈ xs := by
        rcases List.mem_cons.mp hm with e | e
        · exact absurd e.symm hx
        · exact e
      have h2 := ih this
      rw [List.get?_eq_getElem?] at h2
      simp [search, hx, h2]

theorem search_before (h : String) (L : List String) (j : Nat) (hj : j < search h L) :
    L.get? j ≠ some h := by
  induction L generalizing j with
  | nil => simp [search] at hj
  | cons x xs ih =>
    by_cases hx : x = h
    · simp [search, hx] at hj
    · simp only [search, hx, if_false] at hj
      cases j with
      | zero => simpa using hx
      | succ k =>
        have := ih k (by omega)
        simpa using this

theorem eraseIdx_search (h : String) (L : List String) (hm : h ∈ L) :
    L.eraseIdx (search h L) = L.erase h := by
  induction L with
  | nil => simp at hm
  | cons x xs ih =>
    by_cases hx : x = h
    · simp [search, hx]
    · have : h ∈ xs := by
        rcases List.mem_cons.mp hm with e | e
        · exact absurd e.symm hx
        · exact e
      have hb : (x == h) = false := by simpa using hx
      simp [search, hx, List.erase_cons, hb, ih this]

theorem remove_host_mem (c : coordinator_t) (host : String) (hm : host ∈ c.list) :
    remove_host c (some host) =
      some { ttl := c.ttl - 1, list := c.list.eraseIdx (search host c.list) } := by
  have hlt := search_lt_of_mem host c.list hm
  unfold remove_host
  cases hl : c.list with
  | nil => simp [hl] at hm
  | cons x xs =>
    rw [hl] at hlt
    simp only [hlt, if_true]

theorem remove_host_not_mem (c : coordinator_t) (host : String) (hm : host ∉ c.list) :
    remove_host c (some host) = some c := by
  have he := search_of_not_mem host c.list hm
  unfold remove_host
  cases hl : c.list with
  | nil => rfl
  | cons x xs =>
    rw [hl] at he
    simp only [he, lt_irrefl, if_false]

/-! ## The repair branch and the index computations -/

/-- The repair branch of `ring_fix_next` in closed form: `next` is replaced before the
RPCs, whatever their results. -/
theorem ring_fix_next_repair (net : Net) (w : World) (nx nn : String) (election : Int)
    (hnn : w.srv.ring.next_next = some nn) (hne : nx ≠ nn) :
    ring_fix_next net w (some nx) election =
      some (if net w.sent.length (some nn) (Msg.set_prev w.srv.ring.self) = true ∧
              (election = 0 ∨
                net (w.sent.length + 1) (some nn) (Msg.election [w.srv.ring.self]) = true)
            then 0 else -1,
        { srv := { w.srv with ring := { w.srv.ring with next := some nn } }
          sent := w.sent ++
            [⟨some nn, Msg.set_prev w.srv.ring.self,
              net w.sent.length (some nn) (Msg.set_prev w.srv.ring.self)⟩] ++
            (if net w.sent.length (some nn) (Msg.set_prev w.srv.ring.self) = true ∧
                election ≠ 0 then
              [⟨some nn, Msg.election [w.srv.ring.self],
                net (w.sent.length + 1) (some nn) (Msg.election [w.srv.ring.self])⟩]
             else []) }) := by
  unfold ring_fix_next
  by_cases hp : net w.sent.length (some nn) (Msg.set_prev w.srv.ring.self) = true
  · by_cases he : election = 0
    · simp [hnn, hne, ring_set_next, ring_rpc_set_prev, forward, hp, he]
    · by_cases h2 : net (w.sent.length + 1) (some nn) (Msg.election [w.srv.ring.self]) = true
      · simp [hnn, hne, ring_set_next, ring_rpc_set_prev, ring_rpc_election, forward, hp, he,
          h2]
      · simp [hnn, hne, ring_set_next, ring_rpc_set_prev, ring_rpc_election, forward, hp, he,
          h2]
  · simp [hnn, hne, ring_set_next, ring_rpc_set_prev, forward, hp]

/-- The two indices of the `coordinator` handler are in bounds and the normalisation loop
ends within four rounds. -/
theorem coordinator_indices (fuel : Nat) (n : Int) (i : Int) (hn : 0 < n) (hi : 0 ≤ i) :
    0 ≤ Int.tmod (i + 2) n ∧ Int.tmod (i + 2) n < n ∧
    ∃ j, wrap_loop n (fuel + 4) (Int.tmod (i + 2) n - 4) = some j ∧ 0 ≤ j ∧ j < n ∧
      j = (i - 2) % n := by
  have htm : Int.tmod (i + 2) n = (i + 2) % n := Int.tmod_eq_emod (by omega) (le_of_lt hn)
  have hj0 : 0 ≤ (i + 2) % n := Int.emod_nonneg _ (ne_of_gt hn)
  have hjn : (i + 2) % n < n := Int.emod_lt_of_pos _ hn
  have hwrap := wrap_loop_eq n (fuel + 4) ((i + 2) % n - 4)
    (by
      have : ((fuel + 4 : Nat) : Int) * n ≥ 4 := by
        have h4 : ((fuel + 4 : Nat) : Int) ≥ 4 := by push_cast; omega
        nlinarith
      linarith) (by linarith)
  have hmod : ((i + 2) % n - 4) % n = (i - 2) % n := by
    have : i - 2 = (i + 2) - 4 := by ring
    rw [this, Int.sub_emod, Int.emod_emod_of_dvd _ (dvd_refl _), ← Int.sub_emod]
  rw [htm]
  refine ⟨hj0, hjn, _, hwrap, Int.emod_nonneg _ (ne_of_gt hn), Int.emod_lt_of_pos _ hn, hmod⟩

/-! ## The join of a second server -/

theorem join_first_eq (net : Net) (s : Server) (C : String)
    (h : net 0 s.ring.prev (Msg.set_next C) = true) :
    join net s C =
      some ({ srv := { s with ring := { s.ring with prev := some C } }
              sent := [⟨s.ring.prev, Msg.set_next C, true⟩] }, s.ring.prev) := by
  simp [join, ring_rpc_set_next, forward, h, ring_set_prev]

/-- Once the first election message of the head of the cycle `ns` is on the wire, the
election lap and the coordinator lap run to the end. -/
theorem lap_after_first_election (fuel : Nat) (ns : List String) (hne : ns ≠ [])
    (hnd : ns.Nodup) (c : Cluster) (hR : RingOf ns c)
    (hwire : c.wire = [(nth ns 1, Msg.election (ns.take 1))]) :
    ∃ c2, run (fuel + 4) (2 * ns.length) c = some c2 ∧ RingOf ns c2 ∧ c2.wire = [] ∧
      (∀ x, x ∈ ns → Updated c2 ns x) ∧
      c2.handled = c.handled ++ election_lap ns ++ coordinator_lap ns ns := by
  have hn := length_pos_of_ne_nil hne
  obtain ⟨ca, hra, a1, a2, a3⟩ := run_steps (fuel + 4)
    (fun t c1 => RingOf ns c1 ∧
      c1.wire = [(nth ns (t + 1), Msg.election (ns.take (t + 1)))] ∧
      c1.handled = c.handled ++ (List.range t).map fun u =>
        (nth ns (u + 1), Msg.election (ns.take (u + 1))))
    (ns.length - 1)
    (by
      intro t c1 ht ⟨b1, b2, b3⟩
      exact election_hop (fuel + 3) ns hne hnd c.handled t c1 (by omega) b1 b2 b3)
    c ⟨hR, hwire, by simp⟩
  have e2 : ns.length - 1 + 1 = ns.length := by omega
  rw [e2, List.take_length] at a2
  obtain ⟨cb, hdb, b1, b2, b3⟩ := election_last_hop (fuel + 3) ns hne c.handled ca a1 a2 a3
  obtain ⟨cc, hrc, c1, c2, c3, c4⟩ := coordinator_lap_run fuel ns ns hne hne cb b1 b2
  refine ⟨cc, ?_, c1, c2, c3, ?_⟩
  · have e3 : 2 * ns.length = (ns.length - 1) + (1 + ns.length) := by omega
    have hdb2 : deliver (fuel + 4) ca = some cb := hdb
    rw [e3, run_add, hra, Option.some_bind, run_add]
    simp [run, hdb2, hrc]
  · rw [c4, b3]

theorem ring_eq_of_roles (r : Ring) (a : String) (b c d e : Option String)
    (h1 : r.self = a) (h2 : r.next = b) (h3 : r.prev = c) (h4 : r.next_next = d)
    (h5 : r.prev_prev = e) : r = ⟨a, b, c, d, e⟩ := by
  cases r
  simp_all

/-- The join of `B` against the single-node ring `A`, up to the response. -/
theorem join_at_alone (c : Cluster) (A B : String) (sA sB : Server) (hAB : A ≠ B)
    (hA : c.nodes A = some sA) (hB : c.nodes B = some sB)
    (hrA : sA.ring = ⟨A, some A, some A, some A, some A⟩) (hwire : c.wire = []) :
    ∃ c1, join_at c B A = some c1 ∧ c1.wire = [(A, Msg.set_next B)] ∧
      c1.handled = c.handled ++ [(A, Msg.join B)] ∧
      c1.nodes A = some { sA with ring := ⟨A, some A, some B, some A, some A⟩ } ∧
      c1.nodes B = some { sB with ring := { sB.ring with prev := some A, next := some A } } := by
  have hp : sA.ring.prev = some A := by rw [hrA]
  have hnet : c.net 0 sA.ring.prev (Msg.set_next B) = true := by
    rw [hp]
    exact net_live c A sA hA _ _
  have hj := join_first_eq c.net sA B hnet
  rw [hp] at hj
  cases hja : join_at c B A with
  | none =>
    unfold join_at at hja
    simp [hA, hB, hj] at hja
  | some c1 =>
    unfold join_at at hja
    simp only [hA, hB, hj, Option.some.injEq] at hja
    subst hja
    refine ⟨_, rfl, ?_, ?_, ?_, ?_⟩
    · simp [Cluster.commit, accepted, hwire]
    · simp [Cluster.commit]
    · simp [Cluster.commit, Function.update_noteq hAB, hrA]
    · simp [Cluster.commit]

/-- The bootstrap peer `A` handles the `set_next(B)` it sent to itself: the two servers form
the ring `[A, B]` and the election message of `A` is on the wire. -/
theorem set_next_alone (fuel : Nat) (c1 : Cluster) (A B : String) (sA sB : Server)
    (hAB : A ≠ B) (hA : c1.nodes A = some sA) (hB : c1.nodes B = some sB)
    (hrA : sA.ring = ⟨A, some A, some B, some A, some A⟩) (hrB1 : sB.ring.self = B)
    (hrB2 : sB.ring.next = some A) (hrB3 : sB.ring.prev = some A)
    (hwire : c1.wire = [(A, Msg.set_next B)]) :
    ∃ c2, deliver (fuel + 1) c1 = some c2 ∧ RingOf [A, B] c2 ∧
      c2.wire = [(B, Msg.election [A])] ∧
      c2.handled = c1.handled ++ [(A, Msg.set_next B)] := by
  have hloop := election_loop_first c1.net fuel
    ⟨{ ring := ⟨A, some B, some B, some A, some A⟩, ring_list := sA.ring_list,
       heartbeat_time := c1.clock, coordinator_rpc_done := sA.coordinator_rpc_done }, []⟩
    none (net_live c1 B sB hB _ _)
  have hh : handle c1.net (fuel + 1) c1.clock sA (Msg.set_next B) =
      some ⟨{ ring := ⟨A, some B, some B, some A, some A⟩, ring_list := sA.ring_list,
              heartbeat_time := c1.clock, coordinator_rpc_done := sA.coordinator_rpc_done },
            [⟨some B, Msg.election [A], true⟩]⟩ := by
    simp only [handle, set_next, ring_start_election, ring_set_next, hrA]
    rw [hloop]
    rfl
  have hd := deliver_cons (fuel + 1) c1 A _ [] sA _ hwire hA hh
  refine ⟨_, hd, ?_, ?_, ?_⟩
  · intro k hk
    have hk2 : k < 2 := by simpa using hk
    interval_cases k
    · simp [nth, Cluster.role, Cluster.commit]
    · simp [nth, Cluster.role, Cluster.commit, Function.update_noteq hAB.symm, hB, hrB1, hrB2,
        hrB3]
  · simp [Cluster.commit, accepted]
  · simp [Cluster.commit]

/-! ## The claims -/

/-- Claim C1. The `join` handler at a bootstrap server `s` that receives `join(C)`: when
`set_next(C)` sent to the current `prev` succeeds, `prev` becomes `C`, nothing else changes
and the response is the old `prev`; when that send fails and `set_next(C)` sent to
`prev_prev` succeeds, `prev` becomes `C` and the response is the old `prev_prev`.  For a
single-node ring `A` (all roles are `A`) the `set_next(C)` is addressed to `A` itself and the
response is `A`; once `A` has handled that `set_next(C)`, with its election message accepted
by `C`, both `prev` and `next` of `A` are `C`. -/
theorem join_splices (net : Net) (s : Server) (C : String) :
    (net 0 s.ring.prev (Msg.set_next C) = true →
      join net s C =
        some ({ srv := { s with ring := { s.ring with prev := some C } }
                sent := [⟨s.ring.prev, Msg.set_next C, true⟩] }, s.ring.prev)) ∧
    (net 0 s.ring.prev (Msg.set_next C) = false →
      net 1 s.ring.prev_prev (Msg.set_next C) = true →
      join net s C =
        some ({ srv := { s with ring := { s.ring with prev := some C } }
                sent := [⟨s.ring.prev, Msg.set_next C, false⟩,
                         ⟨s.ring.prev_prev, Msg.set_next C, true⟩] }, s.ring.prev_prev)) ∧
    (∀ (A : String) (net2 : Net) (fuel now : Nat),
      s.ring = ⟨A, some A, some A, some A, some A⟩ →
      net 0 (some A) (Msg.set_next C) = true →
      net2 0 (some C) (Msg.election [A]) = true →
      ∃ w1 w2, join net s C = some (w1, some A) ∧
        accepted w1.sent = [(A, Msg.set_next C)] ∧
        set_next net2 (fuel + 1) now w1.srv C = some w2 ∧
        w2.srv.ring.prev = some C ∧ w2.srv.ring.next = some C ∧
        accepted w2.sent = [(C, Msg.election [A])]) := by
  refine ⟨?_, ?_, ?_⟩
  · intro h
    simp [join, ring_rpc_set_next, forward, h, ring_set_prev]
  · intro h1 h2
    simp [join, ring_rpc_set_next, forward, h1, h2, ring_set_prev]
  · intro A net2 fuel now hs h1 h2
    have hp : s.ring.prev = some A := by rw [hs]
    refine ⟨{ srv := { s with ring := { s.ring with prev := some C } }
              sent := [⟨some A, Msg.set_next C, true⟩] },
      { srv := { s with ring := ⟨A, some C, some C, some A, some A⟩, heartbeat_time := now }
        sent := [⟨some C, Msg.election [A], true⟩] }, ?_, ?_, ?_, rfl, rfl, ?_⟩
    · simp [join, ring_rpc_set_next, forward, h1, ring_set_prev, hp]
    · simp [accepted]
    · simp [set_next, ring_start_election, election_loop, ring_set_next, ring_rpc_election,
        forward, hs, h2]
    · simp [accepted]

theorem join_splices_witness :
    (∃ w1 w2, join all_up (server_of "A" "A" "A" "A" "A") "B" = some (w1, some "A") ∧
      accepted w1.sent = [("A", Msg.set_next "B")] ∧
      set_next all_up (0 + 1) 5 w1.srv "B" = some w2 ∧
      w2.srv.ring.prev = some "B" ∧ w2.srv.ring.next = some "B" ∧
      accepted w2.sent = [("B", Msg.election ["A"])]) ∧
    join first_fails (server_of "A" "B" "D" "C" "C") "E" =
      some ({ srv := { server_of "A" "B" "D" "C" "C" with
                       ring := ⟨"A", some "B", some "E", some "C", some "C"⟩ }
              sent := [⟨some "D", Msg.set_next "E", false⟩,
                       ⟨some "C", Msg.set_next "E", true⟩] }, some "C") :=
  ⟨(join_splices all_up (server_of "A" "A" "A" "A" "A") "B").2.2 "A" all_up 0 5 rfl rfl rfl,
   (join_splices first_fails (server_of "A" "B" "D" "C" "C") "E").2.1 rfl rfl⟩

/-- Claim C2. The `election` handler at a server `s` that receives `election(L)`.  When
`self` does not occur in `L` and the forward to `next` succeeds, the only RPC is
`election(L ++ [self])` to `next`; when that forward fails and the repair to `next_next`
succeeds, the retry carries the same `L ++ [self]`, with `self` appended once.  When `self`
occurs in `L` and the forward succeeds, the only RPC is `coordinator(L, |L| - 1)` to `next`.
In the two cases where the first forward succeeds the Neighbour Table is unchanged. -/
theorem election_forwards (net : Net) (fuel now : Nat) (s : Server) (L : List String) :
    (s.ring.self ∉ L →
      net 0 s.ring.next (Msg.election (L ++ [s.ring.self])) = true →
      election net (fuel + 1) now s L =
        some { srv := { s with heartbeat_time := now }
               sent := [⟨s.ring.next, Msg.election (L ++ [s.ring.self]), true⟩] }) ∧
    (∀ nx nn : String, s.ring.self ∉ L →
      s.ring.next = some nx → s.ring.next_next = some nn → nx ≠ nn →
      net 0 (some nx) (Msg.election (L ++ [s.ring.self])) = false →
      net 1 (some nn) (Msg.set_prev s.ring.self) = true →
      net 2 (some nn) (Msg.election (L ++ [s.ring.self])) = true →
      election net (fuel + 2) now s L =
        some { srv := { s with heartbeat_time := now, ring := { s.ring with next := some nn } }
               sent := [⟨some nx, Msg.election (L ++ [s.ring.self]), false⟩,
                        ⟨some nn, Msg.set_prev s.ring.self, true⟩,
                        ⟨some nn, Msg.election (L ++ [s.ring.self]), true⟩] }) ∧
    (s.ring.self ∈ L →
      net 0 s.ring.next (Msg.coordinator L ((L.length : Int) - 1)) = true →
      election net (fuel + 1) now s L =
        some { srv := { s with heartbeat_time := now }
               sent := [⟨s.ring.next, Msg.coordinator L ((L.length : Int) - 1), true⟩] }) := by
  refine ⟨?_, ?_, ?_⟩
  · intro hn h
    simp [election, search_of_not_mem _ _ hn, election_loop, ring_rpc_election, forward, h]
  · intro nx nn hn hnx hnn hne h0 h1 h2
    simp [election, search_of_not_mem _ _ hn, election_loop, ring_rpc_election, forward, h0,
      hnx, hnn, hne, ring_fix_next, ring_set_next, ring_rpc_set_prev, h1, h2]
  · intro hm h
    have hlt := search_lt_of_mem _ _ hm
    have hloop := coordinator_loop_first net fuel ⟨{ s with heartbeat_time := now }, []⟩
      ⟨(L.length : Int) - 1, L⟩ (by simpa using h)
    simp [election, ne_of_lt hlt, hloop]

theorem election_forwards_witness :
    election all_up (0 + 1) 7 (server_of "B" "C" "A" "B" "B") ["A"] =
      some { srv := { server_of "B" "C" "A" "B" "B" with heartbeat_time := 7 }
             sent := [⟨some "C", Msg.election ["A", "B"], true⟩] } ∧
    election B_down (0 + 2) 7 (server_of "A" "B" "D" "C" "C") ["D"] =
      some { srv := { server_of "A" "B" "D" "C" "C" with
                      heartbeat_time := 7
                      ring := ⟨"A", some "C", some "D", some "C", some "C"⟩ }
             sent := [⟨some "B", Msg.election ["D", "A"], false⟩,
                      ⟨some "C", Msg.set_prev "A", true⟩,
                      ⟨some "C", Msg.election ["D", "A"], true⟩] } ∧
    election all_up (0 + 1) 7 (server_of "A" "B" "D" "C" "C") ["A", "B", "C", "D"] =
      some { srv := { server_of "A" "B" "D" "C" "C" with heartbeat_time := 7 }
             sent := [⟨some "B", Msg.coordinator ["A", "B", "C", "D"] 3, true⟩] } :=
  ⟨(election_forwards all_up 0 7 (server_of "B" "C" "A" "B" "B") ["A"]).1 (by decide) rfl,
   (election_forwards B_down 0 7 (server_of "A" "B" "D" "C" "C") ["D"]).2.1 "B" "C"
     (by decide) rfl rfl (by decide) rfl rfl rfl,
   (election_forwards all_up 0 7 (server_of "A" "B" "D" "C" "C") ["A", "B", "C", "D"]).2.2
     (by decide) rfl⟩

/-- Claim C3. The `coordinator` handler, for a list `L` of length `n ≥ 1` in which `self`
first occurs at position `i < n`, when the message is not pruned (there is no forward, or the
forward to `next` succeeds): the handler returns and `prev_prev` is `L[(i - 2) mod n]`, with
the non-negative remainder. -/
theorem coordinator_prev_prev (net : Net) (fuel now : Nat) (s : Server) (L : List String)
    (ttl : Int) (i : Nat) (hi : i < L.length) (hat : L.get? i = some s.ring.self)
    (hfirst : ∀ j, j < i → L.get? j ≠ some s.ring.self)
    (hfw : 0 < ttl → net 0 s.ring.next (Msg.coordinator L (ttl - 1)) = true) :
    ∃ w h, coordinator net (fuel + 4) now s ⟨ttl, L⟩ = some w ∧
      w.srv.ring.prev_prev = some h ∧
      L.get? (((i : Int) - 2) % (L.length : Int)).toNat = some h := by
  have hL : L ≠ [] := by
    intro e
    simp [e] at hi
  have hs := search_of_first s.ring.self L i hi hat hfirst
  have hsome := at_mod_isSome L hL ((i : Int) - 2)
  obtain ⟨h, eh⟩ := Option.isSome_iff_exists.mp hsome
  refine ⟨_, h, coordinator_eq net fuel now s L ttl hL hfw, ?_, ?_⟩
  · simp [hs, eh]
  · simpa [at_mod] using eh

theorem coordinator_prev_prev_witness :
    ∃ w h, coordinator all_up (0 + 4) 7 (server_of "B" "C" "A" "B" "B")
        ⟨2, ["A", "B", "C", "D"]⟩ = some w ∧
      w.srv.ring.prev_prev = some h ∧
      ["A", "B", "C", "D"].get?
        ((((1 : Nat) : Int) - 2) % ((["A", "B", "C", "D"].length : Nat) : Int)).toNat = some h :=
  coordinator_prev_prev all_up 0 7 (server_of "B" "C" "A" "B" "B") ["A", "B", "C", "D"] 2 1
    (by decide) (by decide) (by decide) (fun _ => rfl)

/-- Claim C4. The `coordinator` handler, for a list `L` of length `n ≥ 1` in which `self`
first occurs at position `i < n`, when the message is not pruned (there is no forward, or the
forward to `next` succeeds): the handler returns and `next_next` is `L[(i + 2) mod n]`. -/
theorem coordinator_next_next (net : Net) (fuel now : Nat) (s : Server) (L : List String)
    (ttl : Int) (i : Nat) (hi : i < L.length) (hat : L.get? i = some s.ring.self)
    (hfirst : ∀ j, j < i → L.get? j ≠ some s.ring.self)
    (hfw : 0 < ttl → net 0 s.ring.next (Msg.coordinator L (ttl - 1)) = true) :
    ∃ w h, coordinator net (fuel + 4) now s ⟨ttl, L⟩ = some w ∧
      w.srv.ring.next_next = some h ∧
      L.get? ((i + 2) % L.length) = some h := by
  have hL : L ≠ [] := by
    intro e
    simp [e] at hi
  have hs := search_of_first s.ring.self L i hi hat hfirst
  have hsome := at_mod_isSome L hL ((i : Int) + 2)
  obtain ⟨h, eh⟩ := Option.isSome_iff_exists.mp hsome
  refine ⟨_, h, coordinator_eq net fuel now s L ttl hL hfw, ?_, ?_⟩
  · simp [hs, eh]
  · have e : (((i : Int) + 2) % (L.length : Int)).toNat = (i + 2) % L.length := by
      have : ((i : Int) + 2) % (L.length : Int) = (((i + 2) % L.length : Nat) : Int) := by
        push_cast
        rfl
      rw [this, Int.toNat_ofNat]
    unfold at_mod at eh
    rw [e] at eh
    exact eh

theorem coordinator_next_next_witness :
    ∃ w h, coordinator all_up (0 + 4) 7 (server_of "D" "A" "C" "D" "D")
        ⟨0, ["A", "B", "C", "D"]⟩ = some w ∧
      w.srv.ring.next_next = some h ∧
      ["A", "B", "C", "D"].get? ((3 + 2) % ["A", "B", "C", "D"].length) = some h :=
  coordinator_next_next all_up 0 7 (server_of "D" "A" "C" "D" "D") ["A", "B", "C", "D"] 0 3
    (by decide) (by decide) (by decide) (fun h => absurd h (by decide))

/-- Claim C5. The `coordinator` handler receiving `(L, TTL)` with a participant list `L` of
length at least one.  When `TTL > 0` and the forward to `next` succeeds, the only RPC is
`coordinator(L, TTL - 1)` to `next`; when `TTL ≤ 0` there is no RPC.  In both cases the
handler returns with the membership list `L`, `next_next = L[(i + 2) mod n]`,
`prev_prev = L[(i - 2) mod n]` for the search result `i`, and the latch set. -/
theorem coordinator_ttl (net : Net) (fuel now : Nat) (s : Server) (L : List String)
    (ttl : Int) (hL : L ≠ []) :
    (0 < ttl → net 0 s.ring.next (Msg.coordinator L (ttl - 1)) = true →
      ∃ w, coordinator net (fuel + 4) now s ⟨ttl, L⟩ = some w ∧
        w.sent = [⟨s.ring.next, Msg.coordinator L (ttl - 1), true⟩] ∧
        w.srv.ring_list = L ∧
        w.srv.ring.next_next = at_mod L ((search s.ring.self L : Int) + 2) ∧
        w.srv.ring.prev_prev = at_mod L ((search s.ring.self L : Int) - 2) ∧
        w.srv.coordinator_rpc_done = true) ∧
    (ttl ≤ 0 →
      ∃ w, coordinator net (fuel + 4) now s ⟨ttl, L⟩ = some w ∧
        w.sent = [] ∧
        w.srv.ring_list = L ∧
        w.srv.ring.next_next = at_mod L ((search s.ring.self L : Int) + 2) ∧
        w.srv.ring.prev_prev = at_mod L ((search s.ring.self L : Int) - 2) ∧
        w.srv.coordinator_rpc_done = true) := by
  refine ⟨?_, ?_⟩
  · intro ht h
    refine ⟨_, coordinator_eq net fuel now s L ttl hL (fun _ => h), ?_⟩
    simp [ht]
  · intro ht
    refine ⟨_, coordinator_eq net fuel now s L ttl hL (fun h => absurd h (not_lt.mpr ht)), ?_⟩
    simp [not_lt.mpr ht]

theorem coordinator_ttl_witness :
    (∃ w, coordinator all_up (0 + 4) 7 (server_of "B" "C" "A" "B" "B")
        ⟨3, ["A", "B", "C", "D"]⟩ = some w ∧
      w.sent = [⟨(server_of "B" "C" "A" "B" "B").ring.next,
        Msg.coordinator ["A", "B", "C", "D"] (3 - 1), true⟩] ∧
      w.srv.ring_list = ["A", "B", "C", "D"] ∧
      w.srv.ring.next_next = at_mod ["A", "B", "C", "D"]
        ((search (server_of "B" "C" "A" "B" "B").ring.self ["A", "B", "C", "D"] : Int) + 2) ∧
      w.srv.ring.prev_prev = at_mod ["A", "B", "C", "D"]
        ((search (server_of "B" "C" "A" "B" "B").ring.self ["A", "B", "C", "D"] : Int) - 2) ∧
      w.srv.coordinator_rpc_done = true) ∧
    (∃ w, coordinator all_up (0 + 4) 7 (server_of "A" "B" "D" "A" "A")
        ⟨0, ["A", "B", "C", "D"]⟩ = some w ∧
      w.sent = [] ∧
      w.srv.ring_list = ["A", "B", "C", "D"] ∧
      w.srv.ring.next_next = at_mod ["A", "B", "C", "D"]
        ((search (server_of "A" "B" "D" "A" "A").ring.self ["A", "B", "C", "D"] : Int) + 2) ∧
      w.srv.ring.prev_prev = at_mod ["A", "B", "C", "D"]
        ((search (server_of "A" "B" "D" "A" "A").ring.self ["A", "B", "C", "D"] : Int) - 2) ∧
      w.srv.coordinator_rpc_done = true) :=
  ⟨(coordinator_ttl all_up 0 7 (server_of "B" "C" "A" "B" "B") ["A", "B", "C", "D"] 3
      (by decide)).1 (by decide) rfl,
   (coordinator_ttl all_up 0 7 (server_of "A" "B" "D" "A" "A") ["A", "B", "C", "D"] 0
      (by decide)).2 (by decide)⟩

/-- Claim C6. On a ring of `n ≥ 1` distinct live servers `ns` whose `next` and `prev`
pointers form one consistent cycle, with no message in flight, an election started by any
server of the ring runs its lap and the coordinator message runs its lap (`2 n` handler
invocations, every forward to a live server succeeds); afterwards no message is in flight
and every server `x` of the ring has `x.next_next = x.next.next` and
`x.prev_prev = x.prev.prev`. -/
theorem two_hop_after_full_lap (fuel : Nat) (ns : List String) (c : Cluster) (r : Nat)
    (hnd : ns.Nodup) (hr : r < ns.length) (hR : RingOf ns c) (hwire : c.wire = []) :
    ∃ c1 c2, start_election_at (fuel + 4) c (nth ns r) = some c1 ∧
      run (fuel + 4) (2 * ns.length) c1 = some c2 ∧ c2.wire = [] ∧ RingOf ns c2 ∧
      ∀ x, x ∈ ns →
        c2.role Ring.next_next (some x) = c2.role Ring.next (c2.role Ring.next (some x)) ∧
        c2.role Ring.prev_prev (some x) = c2.role Ring.prev (c2.role Ring.prev (some x)) ∧
        (c2.role Ring.next_next (some x)).isSome = true ∧
        (c2.role Ring.prev_prev (some x)).isSome = true := by
  have hne : ns ≠ [] := by
    intro e
    simp [e] at hr
  have hne2 : ns.rotate r ≠ [] := fun e => hne (List.rotate_eq_nil_iff.mp e)
  have hnd2 : (ns.rotate r).Nodup := List.nodup_rotate.mpr hnd
  obtain ⟨c1, c2, h1, h2, h3, h4, h5, _⟩ :=
    full_lap fuel (ns.rotate r) hne2 hnd2 c (ringOf_rotate ns c r hR) hwire
  rw [nth_rotate, Nat.zero_add] at h1
  rw [List.length_rotate] at h2
  refine ⟨c1, c2, h1, h2, h4, ringOf_of_rotate ns c2 r h3, ?_⟩
  intro x hx
  have hx2 : x ∈ ns.rotate r := List.mem_rotate.mpr hx
  exact two_hop_of_updated (ns.rotate r) hne2 hnd2 c2 h3 x hx2 (h5 x hx2)

theorem two_hop_after_full_lap_witness :
    ["A", "B", "C", "D"].Nodup ∧ RingOf ["A", "B", "C", "D"] ring4 ∧
    ∃ c1 c2, start_election_at (0 + 4) ring4 (nth ["A", "B", "C", "D"] 2) = some c1 ∧
      run (0 + 4) (2 * ["A", "B", "C", "D"].length) c1 = some c2 ∧ c2.wire = [] ∧
      RingOf ["A", "B", "C", "D"] c2 ∧
      ∀ x, x ∈ ["A", "B", "C", "D"] →
        c2.role Ring.next_next (some x) = c2.role Ring.next (c2.role Ring.next (some x)) ∧
        c2.role Ring.prev_prev (some x) = c2.role Ring.prev (c2.role Ring.prev (some x)) ∧
        (c2.role Ring.next_next (some x)).isSome = true ∧
        (c2.role Ring.prev_prev (some x)).isSome = true :=
  ⟨by decide, by decide,
   two_hop_after_full_lap 0 ["A", "B", "C", "D"] ring4 2 (by decide) (by decide) (by decide)
     rfl⟩

/-- Claim C7. On a ring of `n ≥ 1` (so also `n ≥ 2`) distinct live servers `ns` with a
consistent `next` cycle and no message loss, a single `election([self])` started at the
server `I = nth ns r` leads to the handler invocations `election_lap` followed by
`coordinator_lap` of the ring listed from `I`:
the coordinator handler runs once at each server, in ring order from `I.next` to `I`, with
the TTL values `n - 1, n - 2, ..., 0`; the handler does not forward at TTL `0`, no message
remains in flight and `coordinator_rpc_done` is true at every server. -/
theorem election_then_ttl_decay (fuel : Nat) (ns : List String) (c : Cluster) (r : Nat)
    (hnd : ns.Nodup) (hr : r < ns.length) (hR : RingOf ns c) (hwire : c.wire = []) :
    ∃ c1 c2, start_election_at (fuel + 4) c (nth ns r) = some c1 ∧
      run (fuel + 4) (2 * ns.length) c1 = some c2 ∧
      c2.handled = c.handled ++ election_lap (ns.rotate r) ++
        coordinator_lap (ns.rotate r) (ns.rotate r) ∧
      coordinator_targets (election_lap (ns.rotate r) ++
        coordinator_lap (ns.rotate r) (ns.rotate r)) = ns.rotate (r + 1) ∧
      (∀ x, x ∈ ns → (coordinator_targets (election_lap (ns.rotate r) ++
        coordinator_lap (ns.rotate r) (ns.rotate r))).count x = 1) ∧
      (∀ (net : Net) (now : Nat) (s : Server), ∃ w,
        coordinator net (fuel + 4) now s ⟨0, ns.rotate r⟩ = some w ∧ w.sent = []) ∧
      c2.wire = [] ∧
      ∀ x, x ∈ ns → ∃ s, c2.nodes x = some s ∧ s.coordinator_rpc_done = true := by
  have hne : ns ≠ [] := by
    intro e
    simp [e] at hr
  have hne2 : ns.rotate r ≠ [] := fun e => hne (List.rotate_eq_nil_iff.mp e)
  have hnd2 : (ns.rotate r).Nodup := List.nodup_rotate.mpr hnd
  obtain ⟨c1, c2, h1, h2, _, h4, h5, h6⟩ :=
    full_lap fuel (ns.rotate r) hne2 hnd2 c (ringOf_rotate ns c r hR) hwire
  rw [nth_rotate, Nat.zero_add] at h1
  rw [List.length_rotate] at h2
  have ht := coordinator_targets_laps (ns.rotate r) (ns.rotate r)
  rw [List.rotate_rotate] at ht
  refine ⟨c1, c2, h1, h2, h6, ht, ?_, ?_, h4, ?_⟩
  · intro x hx
    rw [ht]
    exact List.count_eq_one_of_mem (List.nodup_rotate.mpr hnd) (List.mem_rotate.mpr hx)
  · intro net now s
    refine ⟨_, coordinator_eq net fuel now s (ns.rotate r) 0 hne2 (fun h => absurd h (by decide)),
      ?_⟩
    simp
  · intro x hx
    obtain ⟨s, hs, _, hd, _⟩ := h5 x (List.mem_rotate.mpr hx)
    exact ⟨s, hs, hd⟩

theorem election_then_ttl_decay_witness :
    ["A", "B", "C", "D"].Nodup ∧ RingOf ["A", "B", "C", "D"] ring4 ∧
    ∃ c1 c2, start_election_at (0 + 4) ring4 (nth ["A", "B", "C", "D"] 1) = some c1 ∧
      run (0 + 4) (2 * ["A", "B", "C", "D"].length) c1 = some c2 ∧
      c2.handled = ring4.handled ++ election_lap (["A", "B", "C", "D"].rotate 1) ++
        coordinator_lap (["A", "B", "C", "D"].rotate 1) (["A", "B", "C", "D"].rotate 1) ∧
      coordinator_targets (election_lap (["A", "B", "C", "D"].rotate 1) ++
        coordinator_lap (["A", "B", "C", "D"].rotate 1) (["A", "B", "C", "D"].rotate 1)) =
        ["A", "B", "C", "D"].rotate (1 + 1) ∧
      (∀ x, x ∈ ["A", "B", "C", "D"] →
        (coordinator_targets (election_lap (["A", "B", "C", "D"].rotate 1) ++
          coordinator_lap (["A", "B", "C", "D"].rotate 1)
            (["A", "B", "C", "D"].rotate 1))).count x = 1) ∧
      (∀ (net : Net) (now : Nat) (s : Server), ∃ w,
        coordinator net (0 + 4) now s ⟨0, ["A", "B", "C", "D"].rotate 1⟩ = some w ∧
        w.sent = []) ∧
      c2.wire = [] ∧
      ∀ x, x ∈ ["A", "B", "C", "D"] →
        ∃ s, c2.nodes x = some s ∧ s.coordinator_rpc_done = true :=
  ⟨by decide, by decide,
   election_then_ttl_decay 0 ["A", "B", "C", "D"] ring4 1 (by decide) (by decide) (by decide)
     rfl⟩

/-- Claim C8. The `coordinator` handler replaces the local Membership List with the list `L`
it receives and forwards (no pruning: there is no forward, or it succeeds).  Hence when the
server `nth ns r` of a consistent ring `ns` has sent `coordinator(L, n - 1)` to its `next`
and no forward fails, the message is handled `n` times, no message remains in flight and the
Membership List of every server of the ring, the sender included, is `L`. -/
theorem membership_agreement (fuel : Nat) (ns L : List String) (c : Cluster) (r : Nat)
    (hL : L ≠ []) (hr : r < ns.length) (hR : RingOf ns c)
    (hwire : c.wire = [(nth ns (r + 1), Msg.coordinator L ((ns.length : Int) - 1))]) :
    (∀ (net : Net) (now : Nat) (s : Server) (ttl : Int),
      (0 < ttl → net 0 s.ring.next (Msg.coordinator L (ttl - 1)) = true) →
      ∃ w, coordinator net (fuel + 4) now s ⟨ttl, L⟩ = some w ∧ w.srv.ring_list = L ∧
        ∀ q, q ∈ w.sent → q.msg = Msg.coordinator L (ttl - 1)) ∧
    ∃ c2, run (fuel + 4) ns.length c = some c2 ∧ c2.wire = [] ∧
      c2.handled = c.handled ++ coordinator_lap (ns.rotate r) L ∧
      ∀ x, x ∈ ns → ∃ s, c2.nodes x = some s ∧ s.ring_list = L := by
  have hne : ns ≠ [] := by
    intro e
    simp [e] at hr
  have hne2 : ns.rotate r ≠ [] := fun e => hne (List.rotate_eq_nil_iff.mp e)
  refine ⟨?_, ?_⟩
  · intro net now s ttl hfw
    refine ⟨_, coordinator_eq net fuel now s L ttl hL hfw, rfl, ?_⟩
    intro q hq
    by_cases ht : 0 < ttl
    · simp only [ht, if_true, List.mem_singleton] at hq
      rw [hq]
    · simp [ht] at hq
  · have hw2 : c.wire = [(nth (ns.rotate r) 1,
        Msg.coordinator L (((ns.rotate r).length : Int) - 1))] := by
      rw [nth_rotate, List.length_rotate, Nat.add_comm 1 r]
      exact hwire
    obtain ⟨c2, h1, _, h3, h4, h5⟩ :=
      coordinator_lap_run fuel (ns.rotate r) L hne2 hL c (ringOf_rotate ns c r hR) hw2
    rw [List.length_rotate] at h1
    refine ⟨c2, h1, h3, h5, ?_⟩
    intro x hx
    obtain ⟨s, hs, hl, _⟩ := h4 x (List.mem_rotate.mpr hx)
    exact ⟨s, hs, hl⟩

theorem membership_agreement_witness :
    RingOf ["A", "B", "C", "D"] { ring4 with wire :=
      [("B", Msg.coordinator ["A", "B", "C", "D"] 3)] } ∧
    ∃ c2, run (0 + 4) ["A", "B", "C", "D"].length { ring4 with wire :=
        [("B", Msg.coordinator ["A", "B", "C", "D"] 3)] } = some c2 ∧ c2.wire = [] ∧
      c2.handled = [] ++ coordinator_lap (["A", "B", "C", "D"].rotate 0) ["A", "B", "C", "D"] ∧
      ∀ x, x ∈ ["A", "B", "C", "D"] →
        ∃ s, c2.nodes x = some s ∧ s.ring_list = ["A", "B", "C", "D"] :=
  ⟨by decide,
   (membership_agreement 0 ["A", "B", "C", "D"] ["A", "B", "C", "D"]
     { ring4 with wire := [("B", Msg.coordinator ["A", "B", "C", "D"] 3)] } 0
     (by decide) (by decide) (by decide) rfl).2⟩

/-- Claim C9. The collapse case of the repair loop: for every failed `next` and every
election flag, when `next_next` is null or equal to the failed `next`, `ring_fix_next`
returns `-1`, attempts no RPC and leaves the server state, every role of the Neighbour Table
included, unchanged. -/
theorem ring_fix_next_collapse (net : Net) (w : World) (next : Option String) (election : Int)
    (h : w.srv.ring.next_next = none ∨ (next ≠ none ∧ w.srv.ring.next_next = next)) :
    ring_fix_next net w next election = some (-1, w) := by
  unfold ring_fix_next
  rcases h with h | ⟨h1, h2⟩
  · simp [h]
  · cases next with
    | none => exact absurd rfl h1
    | some nx => simp [h2]

theorem ring_fix_next_collapse_witness :
    ring_fix_next B_down ⟨server_of "A" "B" "B" "B" "B", []⟩ (some "B") 1 =
      some (-1, ⟨server_of "A" "B" "B" "B" "B", []⟩) :=
  ring_fix_next_collapse B_down ⟨server_of "A" "B" "B" "B" "B", []⟩ (some "B") 1
    (Or.inr ⟨by decide, rfl⟩)

/-- Claim C10. The success case of the repair loop: when `next_next` is a host `nn` that
differs from the failed `next` and the outgoing RPCs succeed, `ring_fix_next` returns `0`,
sets `next` to `nn`, leaves `self`, `prev`, `next_next` and `prev_prev` unchanged, sends
`set_prev(self)` to `nn` and then `election([self])` to `nn` exactly when the election flag
is set. -/
theorem ring_fix_next_success (net : Net) (w : World) (next nn : String) (election : Int)
    (hnn : w.srv.ring.next_next = some nn) (hne : next ≠ nn)
    (hprev : net w.sent.length (some nn) (Msg.set_prev w.srv.ring.self) = true)
    (helec : election ≠ 0 →
      net (w.sent.length + 1) (some nn) (Msg.election [w.srv.ring.self]) = true) :
    ring_fix_next net w (some next) election =
      some (0, { srv := { w.srv with ring := { w.srv.ring with next := some nn } }
                 sent := w.sent ++ [⟨some nn, Msg.set_prev w.srv.ring.self, true⟩] ++
                   (if election ≠ 0 then [⟨some nn, Msg.election [w.srv.ring.self], true⟩]
                    else []) }) := by
  unfold ring_fix_next
  by_cases he : election = 0
  · simp [hnn, hne, ring_set_next, ring_rpc_set_prev, forward, hprev, he]
  · have := helec he
    simp [hnn, hne, ring_set_next, ring_rpc_set_prev, ring_rpc_election, forward, hprev, he,
      this]

theorem ring_fix_next_success_witness :
    ring_fix_next B_down ⟨server_of "A" "B" "D" "C" "C", []⟩ (some "B") 1 =
      some (0, { srv := { server_of "A" "B" "D" "C" "C" with
                          ring := ⟨"A", some "C", some "D", some "C", some "C"⟩ }
                 sent := [⟨some "C", Msg.set_prev "A", true⟩,
                          ⟨some "C", Msg.election ["A"], true⟩] }) :=
  ring_fix_next_success B_down ⟨server_of "A" "B" "D" "C" "C", []⟩ "B" "C" 1 rfl (by decide)
    rfl (fun _ => rfl)

/-- Counterexample to claim C11 as stated.  In the two-node ring `A → B → A` the coordinator
message `([A, B], 0)` leaves `A` with `next = B` and `next_next = A`; with `B` dead,
`ring_fix_next` with the failed `next` `B` and the election flag set does not take the
collapse branch: it replaces `next` by `A`, sends `set_prev(A)` and `election([A])` to `A`
itself and returns `0`, not `-1`. -/
theorem collapsed_ring_counterexample :
    coordinator all_up 4 0 (server_of "A" "B" "B" "B" "B") ⟨0, ["A", "B"]⟩ =
      some ⟨two_ring_A, []⟩ ∧
    two_ring_A.ring.next = some "B" ∧ two_ring_A.ring.next_next = some "A" ∧
    ring_fix_next B_down ⟨two_ring_A, []⟩ (some "B") 1 =
      some (0, { srv := { two_ring_A with
                          ring := ⟨"A", some "A", some "B", some "A", some "A"⟩ }
                 sent := [⟨some "A", Msg.set_prev "A", true⟩,
                          ⟨some "A", Msg.election ["A"], true⟩] }) ∧
    (ring_fix_next B_down ⟨two_ring_A, []⟩ (some "B") 1).map Prod.fst ≠ some (-1) := by
  decide

/-- Claim C11, amended.  In a two-node ring of `A` and `B ≠ A`, a coordinator message with
the list `[A, B]` or `[B, A]` leaves `A` with `next = B` and `next_next = A`.  The repair
`ring_fix_next` with the failed `next` `B` then finds `next_next` different from `B` and
does not take the collapse branch: whatever the RPC results, it replaces `next` by `A` and
first sends `set_prev(A)` to `A` itself; when that send succeeds, and the `election([A])`
sent to `A` when the election flag is set, it returns `0`. -/
theorem two_node_repair_to_self (net net2 : Net) (fuel now : Nat) (s : Server) (A B : String)
    (L : List String) (ttl election : Int) (hAB : A ≠ B) (hself : s.ring.self = A)
    (hnext : s.ring.next = some B) (hL : L = [A, B] ∨ L = [B, A])
    (hfw : 0 < ttl → net 0 (some B) (Msg.coordinator L (ttl - 1)) = true) :
    ∃ w, coordinator net (fuel + 4) now s ⟨ttl, L⟩ = some w ∧
      w.srv.ring.next = some B ∧ w.srv.ring.next_next = some A ∧
      (∃ r w1, ring_fix_next net2 ⟨w.srv, []⟩ (some B) election = some (r, w1) ∧
        w1.srv.ring.next = some A ∧
        w1.sent.head? = some ⟨some A, Msg.set_prev A, net2 0 (some A) (Msg.set_prev A)⟩) ∧
      (net2 0 (some A) (Msg.set_prev A) = true →
        (election ≠ 0 → net2 1 (some A) (Msg.election [A]) = true) →
        ring_fix_next net2 ⟨w.srv, []⟩ (some B) election =
          some (0, { srv := { w.srv with ring := { w.srv.ring with next := some A } }
                     sent := [⟨some A, Msg.set_prev A, true⟩] ++
                       (if election ≠ 0 then [⟨some A, Msg.election [A], true⟩]
                        else []) })) := by
  have hLne : L ≠ [] := by
    rcases hL with e | e <;> simp [e]
  have hnn : at_mod L ((search s.ring.self L : Int) + 2) = some A := by
    rcases hL with e | e
    · rw [e, hself]
      simp [search, at_mod]
    · rw [e, hself]
      simp [search, at_mod, hAB.symm]
  have hc := coordinator_eq net fuel now s L ttl hLne (by rw [hnext]; exact hfw)
  refine ⟨_, hc, hnext, hnn, ?_, ?_⟩
  · have hr := ring_fix_next_repair net2
      ⟨{ ring := { s.ring with
                    next_next := at_mod L ((search s.ring.self L : Int) + 2)
                    prev_prev := at_mod L ((search s.ring.self L : Int) - 2) }
         ring_list := L, heartbeat_time := now, coordinator_rpc_done := true }, []⟩
      B A election hnn hAB.symm
    refine ⟨_, _, hr, rfl, ?_⟩
    simp [hself]
  · intro h1 h2
    have hr := ring_fix_next_repair net2
      ⟨{ ring := { s.ring with
                    next_next := at_mod L ((search s.ring.self L : Int) + 2)
                    prev_prev := at_mod L ((search s.ring.self L : Int) - 2) }
         ring_list := L, heartbeat_time := now, coordinator_rpc_done := true }, []⟩
      B A election hnn hAB.symm
    rw [hr]
    by_cases he : election = 0
    · simp [hself, h1, he]
    · simp [hself, h1, he, h2 he]

theorem two_node_repair_to_self_witness :
    ∃ w, coordinator all_up (0 + 4) 0 (server_of "A" "B" "B" "B" "B") ⟨0, ["A", "B"]⟩ =
        some w ∧
      w.srv.ring.next = some "B" ∧ w.srv.ring.next_next = some "A" ∧
      ring_fix_next B_down ⟨w.srv, []⟩ (some "B") 1 =
        some (0, { srv := { w.srv with ring := { w.srv.ring with next := some "A" } }
                   sent := [⟨some "A", Msg.set_prev "A", true⟩] ++
                     (if (1 : Int) ≠ 0 then [⟨some "A", Msg.election ["A"], true⟩]
                      else []) }) := by
  obtain ⟨w, h1, h2, h3, _, h5⟩ := two_node_repair_to_self all_up B_down 0 0
    (server_of "A" "B" "B" "B" "B") "A" "B" ["A", "B"] 0 1 (by decide) rfl rfl (Or.inl rfl)
    (fun h => absurd h (by decide))
  exact ⟨w, h1, h2, h3, h5 rfl (fun _ => rfl)⟩

/-- Counterexample to claim C12 as stated.  `B` joins the single-node ring `A`; after the
`set_next(B)` at `A`, the election lap and the coordinator lap with the list `[A, B]`, no
message is in flight and `A` has `next_next = prev_prev = A`, `B` has
`next_next = prev_prev = B`: the two-hop pointers are the server itself, not the opposite
server. -/
theorem two_node_bring_up_counterexample :
    ((join_at two_alone "B" "A").bind (run 4 5)).map (fun c =>
        (c.wire, c.handled, (c.nodes "A").map Server.ring, (c.nodes "B").map Server.ring)) =
      some ([],
        [("A", Msg.join "B"), ("A", Msg.set_next "B"), ("B", Msg.election ["A"]),
         ("A", Msg.election ["A", "B"]), ("B", Msg.coordinator ["A", "B"] 1),
         ("A", Msg.coordinator ["A", "B"] 0)],
        some ⟨"A", some "B", some "B", some "A", some "A"⟩,
        some ⟨"B", some "A", some "A", some "B", some "B"⟩) ∧
    ((join_at two_alone "B" "A").bind (run 4 5)).map (fun c =>
        c.role Ring.next_next (some "A")) ≠ some (some "B") := by
  decide

/-- Claim C12, amended.  `B` joins the single-node ring `A` (all roles of `A` are `A`), no
message being in flight.  The join, the `set_next(B)` handled by `A`, the election lap and
the coordinator lap with the list `[A, B]` all run, no message remains in flight, and then
`A.next = A.prev = B`, `B.next = B.prev = A` and the two-hop pointers of each server are the
server itself: `A.next_next = A.prev_prev = A` and `B.next_next = B.prev_prev = B`. -/
theorem two_node_bring_up (fuel : Nat) (c : Cluster) (A B : String) (sA sB : Server)
    (hAB : A ≠ B) (hA : c.nodes A = some sA) (hB : c.nodes B = some sB)
    (hrA : sA.ring = ⟨A, some A, some A, some A, some A⟩) (hrB : sB.ring.self = B)
    (hwire : c.wire = []) :
    ∃ c1 c2, join_at c B A = some c1 ∧ run (fuel + 4) 5 c1 = some c2 ∧ c2.wire = [] ∧
      c2.handled = c.handled ++
        [(A, Msg.join B), (A, Msg.set_next B), (B, Msg.election [A]),
         (A, Msg.election [A, B]), (B, Msg.coordinator [A, B] 1),
         (A, Msg.coordinator [A, B] 0)] ∧
      (∃ s, c2.nodes A = some s ∧ s.ring = ⟨A, some B, some B, some A, some A⟩) ∧
      (∃ s, c2.nodes B = some s ∧ s.ring = ⟨B, some A, some A, some B, some B⟩) := by
  obtain ⟨c1, j1, j2, j3, j4, j5⟩ := join_at_alone c A B sA sB hAB hA hB hrA hwire
  obtain ⟨c2, d1, d2, d3, d4⟩ := set_next_alone (fuel + 3) c1 A B _ _ hAB j4 j5 rfl hrB rfl rfl j2
  have hne : [A, B] ≠ [] := by simp
  have hnd : [A, B].Nodup := by simp [hAB]
  have hw : c2.wire = [(nth [A, B] 1, Msg.election ([A, B].take 1))] := by
    rw [d3]
    simp [nth]
  obtain ⟨c3, r1, r2, r3, r4, r5⟩ := lap_after_first_election fuel [A, B] hne hnd c2 d2 hw
  have hrun : run (fuel + 4) 5 c1 = some c3 := by
    have d1b : deliver (fuel + 4) c1 = some c2 := d1
    have r1b : run (fuel + 4) 4 c2 = some c3 := r1
    simp [run, d1b] at r1b ⊢
    exact r1b
  refine ⟨c1, c3, j1, hrun, r3, ?_, ?_, ?_⟩
  · rw [r5, d4, j3]
    simp [election_lap, coordinator_lap, nth, List.range_succ]
  · obtain ⟨s, hs, e1, e2, e3⟩ := ringOf_node [A, B] c3 hne r2 0
    obtain ⟨s2, hs2, _, _, e4, e5⟩ := r4 A (by simp)
    have hn0 : nth [A, B] 0 = A := by simp [nth]
    rw [hn0] at hs e1
    rw [hs] at hs2
    have es : s2 = s := (Option.some.inj hs2).symm
    rw [es] at e4 e5
    refine ⟨s, hs, ring_eq_of_roles _ _ _ _ _ _ e1 ?_ ?_ ?_ ?_⟩
    · rw [e2]; simp [nth]
    · rw [e3]; simp [nth]
    · rw [e4]; simp [at_mod, search]
    · rw [e5]; simp [at_mod, search]
  · obtain ⟨s, hs, e1, e2, e3⟩ := ringOf_node [A, B] c3 hne r2 1
    obtain ⟨s2, hs2, _, _, e4, e5⟩ := r4 B (by simp)
    have hn1 : nth [A, B] 1 = B := by simp [nth]
    rw [hn1] at hs e1
    rw [hs] at hs2
    have es : s2 = s := (Option.some.inj hs2).symm
    rw [es] at e4 e5
    refine ⟨s, hs, ring_eq_of_roles _ _ _ _ _ _ e1 ?_ ?_ ?_ ?_⟩
    · rw [e2]; simp [nth]
    · rw [e3]; simp [nth]
    · rw [e4]; simp [at_mod, search, hAB]
    · rw [e5]; simp [at_mod, search, hAB]

theorem two_node_bring_up_witness :
    ∃ c1 c2, join_at two_alone "B" "A" = some c1 ∧ run (0 + 4) 5 c1 = some c2 ∧ c2.wire = [] ∧
      (∃ s, c2.nodes "A" = some s ∧ s.ring = ⟨"A", some "B", some "B", some "A", some "A"⟩) ∧
      (∃ s, c2.nodes "B" = some s ∧ s.ring = ⟨"B", some "A", some "A", some "B", some "B"⟩) := by
  obtain ⟨c1, c2, h1, h2, h3, _, h5, h6⟩ := two_node_bring_up 0 two_alone "A" "B"
    (server_of "A" "A" "A" "A" "A") (server_of "B" "B" "B" "B" "B") (by decide) rfl rfl rfl rfl
    rfl
  exact ⟨c1, c2, h1, h2, h3, h5, h6⟩

/-- Claim C13, a defect of the code.  `remove_host` does remove the first occurrence of the
unreachable `next`, keeps the order of the other entries and decreases the TTL by one, and
in the ring `A → B → C → D → A` with `B` dead the forward loop of the `election` handler of
`A` does send `([A, C, D], 2)` to `C`.  But `remove_host` has pruned the array that `in3`
shares with `in`, so the `margo_free_input(h, &in)` that follows frees an entry twice: for
every fuel the handler of `A` does not return, `A` never holds the membership list
`[A, C, D]`.  With `A` gone, `C` takes over `[A, C, D]`, and `D`, whose forward to `A`
fails, prunes `A` and ends with `[C, D]`. -/
theorem election_prune_double_free :
    remove_host ⟨3, ["A", "B", "C", "D"]⟩ (some "B") = some ⟨2, ["A", "C", "D"]⟩ ∧
    (coordinator_loop B_down 4
        ⟨{ server_of "A" "B" "D" "C" "C" with heartbeat_time := 0 }, []⟩
        ⟨3, ["A", "B", "C", "D"]⟩).map (fun p => (p.1.sent, p.2)) =
      some ([⟨some "B", Msg.coordinator ["A", "B", "C", "D"] 3, false⟩,
             ⟨some "C", Msg.set_prev "A", true⟩,
             ⟨some "C", Msg.coordinator ["A", "C", "D"] 2, true⟩],
            ⟨2, ["A", "C", "D"]⟩) ∧
    (∀ fuel : Nat,
      election B_down fuel 0 (server_of "A" "B" "D" "C" "C") ["A", "B", "C", "D"] = none) ∧
    (deliver 4 ring4_B_dead).isNone = true ∧
    (run 4 3 ring4_A_aborted).map (fun c2 =>
        (c2.wire, (c2.nodes "C").map Server.ring_list, (c2.nodes "D").map Server.ring_list)) =
      some ([], some ["A", "C", "D"], some ["C", "D"]) := by
  refine ⟨by decide, by decide, ?_, by decide, by decide⟩
  intro fuel
  match fuel with
  | 0 => decide
  | 1 => decide
  | k + 2 =>
    simp [election, search, coordinator_loop, ring_rpc_coordinator, forward, B_down, server_of,
      remove_host, ring_fix_next, ring_set_next, ring_rpc_set_prev]

/-- Counterexample to claim C14 as stated.  With `B` dead, the server `A` of the ring
`A → B → C → D → A` handles `([A, B, C, D], 3)`: the forward fails, `B` is pruned and `next`
repaired, so the membership list is `[A, C, D]` and `next_next` is `D`.  Handling the same
message again from that state forwards to `C` at once: the membership list is
`[A, B, C, D]` and `next_next` is `C`. -/
theorem coordinator_twice_counterexample :
    coordinator B_down 4 0 (server_of "A" "B" "D" "C" "C") ⟨3, ["A", "B", "C", "D"]⟩ =
      some { srv := { ring := ⟨"A", some "C", some "D", some "D", some "C"⟩
                      ring_list := ["A", "C", "D"]
                      heartbeat_time := 0
                      coordinator_rpc_done := true }
             sent := [⟨some "B", Msg.coordinator ["A", "B", "C", "D"] 2, false⟩,
                      ⟨some "C", Msg.set_prev "A", true⟩,
                      ⟨some "C", Msg.coordinator ["A", "C", "D"] 1, true⟩] } ∧
    coordinator B_down 4 0
        { ring := ⟨"A", some "C", some "D", some "D", some "C"⟩
          ring_list := ["A", "C", "D"]
          heartbeat_time := 0
          coordinator_rpc_done := true } ⟨3, ["A", "B", "C", "D"]⟩ =
      some { srv := { ring := ⟨"A", some "C", some "D", some "C", some "C"⟩
                      ring_list := ["A", "B", "C", "D"]
                      heartbeat_time := 0
                      coordinator_rpc_done := true }
             sent := [⟨some "C", Msg.coordinator ["A", "B", "C", "D"] 2, true⟩] } ∧
    (⟨"A", some "C", some "D", some "C", some "C"⟩ : Ring) ≠
      ⟨"A", some "C", some "D", some "D", some "C"⟩ ∧
    ["A", "B", "C", "D"] ≠ ["A", "C", "D"] := by
  decide

/-- Claim C14, amended.  For every server state and every coordinator message `(L, TTL)`
with a list `L` of length at least one, when no forward fails in either run (`TTL ≤ 0`, or
the forward to `next` succeeds at the first attempt), handling `(L, TTL)` twice in
succession leaves the same Neighbour Table and the same Membership List as handling it
once. -/
theorem coordinator_idempotent (net1 net2 : Net) (fuel now1 now2 : Nat) (s : Server)
    (L : List String) (ttl : Int) (hL : L ≠ [])
    (h1 : 0 < ttl → net1 0 s.ring.next (Msg.coordinator L (ttl - 1)) = true)
    (h2 : 0 < ttl → net2 0 s.ring.next (Msg.coordinator L (ttl - 1)) = true) :
    ∃ w1 w2, coordinator net1 (fuel + 4) now1 s ⟨ttl, L⟩ = some w1 ∧
      coordinator net2 (fuel + 4) now2 w1.srv ⟨ttl, L⟩ = some w2 ∧
      w2.srv.ring = w1.srv.ring ∧ w2.srv.ring_list = w1.srv.ring_list := by
  have e1 := coordinator_eq net1 fuel now1 s L ttl hL h1
  refine ⟨_, _, e1, coordinator_eq net2 fuel now2 _ L ttl hL h2, rfl, rfl⟩

theorem coordinator_idempotent_witness :
    ∃ w1 w2, coordinator all_up (0 + 4) 1 (server_of "B" "C" "A" "B" "B")
        ⟨2, ["A", "B", "C", "D"]⟩ = some w1 ∧
      coordinator all_up (0 + 4) 2 w1.srv ⟨2, ["A", "B", "C", "D"]⟩ = some w2 ∧
      w2.srv.ring = w1.srv.ring ∧ w2.srv.ring_list = w1.srv.ring_list :=
  coordinator_idempotent all_up all_up 0 1 2 (server_of "B" "C" "A" "B" "B")
    ["A", "B", "C", "D"] 2 (by decide) (fun _ => rfl) (fun _ => rfl)

/-- Claim C15.  For every list of length `n ≥ 1` and every search result `i` (so also for
`0 ≤ i ≤ n`): the index `(i + 2) % n` lies in `[0, n)`, the loop `while (i < 0) i += n`
started at that index minus four ends within four rounds with an index in `[0, n)`, and the
part of the handler that reads the list returns, with `next_next` and `prev_prev` set.  When
`self` does not occur in the list, `next_next` is overwritten with `L[2 mod n]` and
`prev_prev` with `L[(n - 2) mod n]`. -/
theorem coordinator_index_safety (fuel : Nat) (w : World) (c : coordinator_t) (i : Nat)
    (hL : c.list ≠ []) :
    (0 ≤ Int.tmod ((i : Int) + 2) c.list.length ∧
      Int.tmod ((i : Int) + 2) c.list.length < c.list.length ∧
      ∃ j, wrap_loop c.list.length (fuel + 4) (Int.tmod ((i : Int) + 2) c.list.length - 4) =
          some j ∧ 0 ≤ j ∧ j < c.list.length) ∧
    (∃ w1 h1 h2, coordinator_update (fuel + 4) w c = some w1 ∧
      w1.srv.ring.next_next = some h1 ∧ w1.srv.ring.prev_prev = some h2) ∧
    (w.srv.ring.self ∉ c.list →
      ∃ w1 h1 h2, coordinator_update (fuel + 4) w c = some w1 ∧
        w1.srv.ring.next_next = some h1 ∧ c.list.get? (2 % c.list.length) = some h1 ∧
        w1.srv.ring.prev_prev = some h2 ∧
        c.list.get? ((((c.list.length : Nat) : Int) - 2) % (c.list.length : Int)).toNat =
          some h2) := by
  have hn : (0 : Int) < c.list.length := by
    have := List.length_pos.mpr hL
    exact_mod_cast this
  obtain ⟨a1, a2, j, a3, a4, a5, _⟩ := coordinator_indices fuel c.list.length i hn (by omega)
  have s1 := at_mod_isSome c.list hL ((search w.srv.ring.self c.list : Int) + 2)
  have s2 := at_mod_isSome c.list hL ((search w.srv.ring.self c.list : Int) - 2)
  obtain ⟨h1, e1⟩ := Option.isSome_iff_exists.mp s1
  obtain ⟨h2, e2⟩ := Option.isSome_iff_exists.mp s2
  refine ⟨⟨a1, a2, j, a3, a4, a5⟩, ⟨_, h1, h2, coordinator_update_eq fuel w c hL, e1, e2⟩, ?_⟩
  intro hno
  have hs := search_of_not_mem _ _ hno
  rw [hs] at e1 e2
  refine ⟨_, h1, h2, coordinator_update_eq fuel w c hL, by rw [hs]; exact e1, ?_,
    by rw [hs]; exact e2, ?_⟩
  · unfold at_mod at e1
    have e : (((c.list.length : Nat) : Int) + 2) % (c.list.length : Int) =
        ((2 % c.list.length : Nat) : Int) := by
      rw [Int.add_emod, Int.emod_self, zero_add, Int.emod_emod_of_dvd _ (dvd_refl _)]
      push_cast
      rfl
    rw [e, Int.toNat_ofNat] at e1
    exact e1
  · unfold at_mod at e2
    exact e2

theorem coordinator_index_safety_witness :
    ∃ w1 h1 h2, coordinator_update (0 + 4) ⟨server_of "E" "A" "D" "E" "E", []⟩
        ⟨0, ["A", "B", "C"]⟩ = some w1 ∧
      w1.srv.ring.next_next = some h1 ∧ ["A", "B", "C"].get? (2 % ["A", "B", "C"].length) = some h1 ∧
      w1.srv.ring.prev_prev = some h2 ∧
      ["A", "B", "C"].get? ((((["A", "B", "C"].length : Nat) : Int) - 2) %
        ((["A", "B", "C"].length : Nat) : Int)).toNat = some h2 :=
  (coordinator_index_safety 0 ⟨server_of "E" "A" "D" "E" "E", []⟩ ⟨0, ["A", "B", "C"]⟩ 3
    (by decide)).2.2 (by decide)

/-- Claim C16.  `ring_fix_next` is not atomic: when `next_next` is a host `nn` that differs
from the failed `next`, the call returns with `next = nn` whatever the result; the result is
`0` or `-1`, and `-1` exactly when the `set_prev` send fails or the election flag is set and
the `election` send fails; when `next` was the failed host the Neighbour Table has changed,
also with the result `-1`.  The caller `ring_heartbeat` then stops: with the `list` send and
the `set_prev` send failing it returns after these two RPCs with `next` replaced. -/
theorem ring_fix_next_not_atomic (net : Net) (w : World) (nx nn : String) (election : Int)
    (hnn : w.srv.ring.next_next = some nn) (hne : nx ≠ nn) :
    (∃ r w1, ring_fix_next net w (some nx) election = some (r, w1) ∧
      w1.srv.ring.next = some nn ∧ (r = 0 ∨ r = -1) ∧
      (r = -1 ↔ (net w.sent.length (some nn) (Msg.set_prev w.srv.ring.self) = false ∨
        (election ≠ 0 ∧
          net (w.sent.length + 1) (some nn) (Msg.election [w.srv.ring.self]) = false))) ∧
      (w.srv.ring.next = some nx → w1.srv.ring ≠ w.srv.ring)) ∧
    (∀ (s : Server) (fuel : Nat), s.ring.next = some nx → s.ring.next_next = some nn →
      net 0 (some nx) (Msg.list [s.ring.self]) = false →
      net 1 (some nn) (Msg.set_prev s.ring.self) = false →
      ring_heartbeat net (fuel + 1) s =
        some { srv := { s with ring := { s.ring with next := some nn } }
               sent := [⟨some nx, Msg.list [s.ring.self], false⟩,
                        ⟨some nn, Msg.set_prev s.ring.self, false⟩] }) := by
  refine ⟨⟨_, _, ring_fix_next_repair net w nx nn election hnn hne, rfl, ?_, ?_, ?_⟩, ?_⟩
  · by_cases hc : net w.sent.length (some nn) (Msg.set_prev w.srv.ring.self) = true ∧
        (election = 0 ∨
          net (w.sent.length + 1) (some nn) (Msg.election [w.srv.ring.self]) = true)
    · exact Or.inl (if_pos hc)
    · exact Or.inr (if_neg hc)
  · by_cases hp : net w.sent.length (some nn) (Msg.set_prev w.srv.ring.self) = true
    · by_cases he : election = 0
      · simp [hp, he]
      · by_cases h2 : net (w.sent.length + 1) (some nn) (Msg.election [w.srv.ring.self]) = true
        · simp [hp, he, h2]
        · simp [hp, he, h2]
    · simp [hp]
  · intro hx e
    have := congrArg Ring.next e
    simp only [hx, Option.some.injEq] at this
    exact hne this.symm
  · intro s fuel h1 h2 h3 h4
    simp [ring_heartbeat, list_loop, ring_rpc_list, forward, h1, h2, h3, h4, hne, ring_fix_next,
      ring_set_next, ring_rpc_set_prev]

theorem ring_fix_next_not_atomic_witness :
    ring_heartbeat (fun _ _ _ => false) (0 + 1) (server_of "A" "B" "D" "C" "C") =
      some { srv := { server_of "A" "B" "D" "C" "C" with
                      ring := { (server_of "A" "B" "D" "C" "C").ring with next := some "C" } }
             sent := [⟨some "B", Msg.list [(server_of "A" "B" "D" "C" "C").ring.self], false⟩,
                      ⟨some "C", Msg.set_prev (server_of "A" "B" "D" "C" "C").ring.self,
                        false⟩] } :=
  (ring_fix_next_not_atomic (fun _ _ _ => false) ⟨server_of "A" "B" "D" "C" "C", []⟩ "B" "C" 1
    rfl (by decide)).2 (server_of "A" "B" "D" "C" "C") 0 rfl rfl rfl rfl

end Chfs
